import Mathlib

/-!
Verification development for the staggering heuristic in `RQ.py`
(`compute_inventory_profile`, `lcm`, `lcm_of_list`, `staggering_algorithm`).

Modelling conventions:
* Python `float` demand rates are embedded as `ℚ`; Python `int` values as
  `ℕ`/`ℤ`.  `round(x, 1)` on floats is embedded as exact round-half-to-even
  of `10·x` divided by `10`.
* Python statements that raise an uncaught exception (`max([])` on an empty
  horizon, indexing `items[0]` of an empty list) are embedded as `none`;
  the unbounded `while improved` loop is embedded with explicit fuel, and
  a theorem shows the fuel `∏ mᵢ + 1` always suffices on valid input.
* Python's `list.sort(key=...)` is a stable sort; since every element of
  `items` carries its distinct original index, the stable sort by lot size
  coincides with sorting by the lexicographic order on (lot size, index),
  which is how `sortItems` is defined (via `List.insertionSort`, itself
  stable).
-/

namespace RQ

/-- `lcm(a, b)` from the source: `abs(a*b) // gcd(a, b) if a and b else 0`. -/
def lcm (a b : ℕ) : ℕ := if a ≠ 0 ∧ b ≠ 0 then a * b / Nat.gcd a b else 0

/-- `lcm_of_list(nums)` from the source: `1` on the empty list, otherwise a
left fold of `lcm` starting from the head. -/
def lcm_of_list (nums : List ℕ) : ℕ :=
  match nums with
  | [] => 1
  | x :: xs => xs.foldl lcm x

/-- `compute_inventory_profile(m_i, d_i, f_i, M)` from the source:
`[d_i * (m_i - ((t - f_i) % m_i)) for t in range(1, M+1)]`.  Python's `%`
with a positive modulus agrees with `Int.emod`. -/
def compute_inventory_profile (m_i : ℕ) (d_i : ℚ) (f_i : ℤ) (M : ℕ) : List ℚ :=
  (List.range M).map
    (fun (t0 : ℕ) => d_i * ((m_i : ℚ) - ((((t0 : ℤ) + 1 - f_i) % (m_i : ℤ) : ℤ) : ℚ)))

/-- One scheduling item: original index `i`, cycle multiplier `m[i]`,
demand rate `d[i]` (the tuples `(i, m[i], d[i])` built at line 190). -/
structure Item where
  idx : ℕ
  mult : ℕ
  dem : ℚ
deriving DecidableEq

/-- Lot size `m_i * d_i`, the sort key of line 191. -/
def lot (it : Item) : ℚ := (it.mult : ℚ) * it.dem

/-- The order realised by Python's stable `items.sort(key=lambda x: x[1]*x[2])`
on a list whose elements carry distinct original indices: lexicographic on
(lot size, original index). -/
def itemLE (a b : Item) : Prop := lot a < lot b ∨ (lot a = lot b ∧ a.idx ≤ b.idx)

instance : DecidableRel itemLE := fun a b => by
  unfold itemLE; infer_instance

instance : IsTotal Item itemLE := by
  constructor
  intro a b
  rcases lt_trichotomy (lot a) (lot b) with h | h | h
  · exact Or.inl (Or.inl h)
  · rcases Nat.le_total a.idx b.idx with h' | h'
    · exact Or.inl (Or.inr ⟨h, h'⟩)
    · exact Or.inr (Or.inr ⟨h.symm, h'⟩)
  · exact Or.inr (Or.inl h)

instance : IsTrans Item itemLE := by
  constructor
  intro a b c hab hbc
  rcases hab with h1 | ⟨h1, h1'⟩
  · rcases hbc with h2 | ⟨h2, _⟩
    · exact Or.inl (h1.trans h2)
    · exact Or.inl (h2 ▸ h1)
  · rcases hbc with h2 | ⟨h2, h2'⟩
    · exact Or.inl (h1 ▸ h2)
    · exact Or.inr ⟨h1.trans h2, h1'.trans h2'⟩

/-- The item tuples `(i, m[i], d[i])` of line 190. -/
def mkItems (m : List ℕ) (d : List ℚ) : List Item :=
  (List.range m.length).map (fun i => ⟨i, m.getD i 0, d.getD i 0⟩)

/-- `items.sort(key=lambda x: x[1]*x[2])` of line 191 (stable sort). -/
def sortItems (items : List Item) : List Item := List.insertionSort itemLE items

/-- Horizon derivation of lines 181-182: `M = M_cycle if M_cycle <= T_max
else T_max`. -/
def horizonM (m : List ℕ) (T_max : ℕ) : ℕ :=
  let M_cycle := lcm_of_list m
  if M_cycle ≤ T_max then M_cycle else T_max

/-- Elementwise sum of two inventory sequences. -/
def addL (a b : List ℚ) : List ℚ := List.zipWith (· + ·) a b

/-- Elementwise difference of two inventory sequences. -/
def subL (a b : List ℚ) : List ℚ := List.zipWith (· - ·) a b

/-- Python's `max` on a list: `none` on the empty list (where Python raises
`ValueError`), otherwise the greatest element. -/
def listMax : List ℚ → Option ℚ
  | [] => none
  | a :: l => some (l.foldl max a)

/-- The mutable state of `staggering_algorithm`: `schedules`, `contributions`
(with `[]` standing for the never-read `None` placeholders) and `total_inv`. -/
structure StagState where
  schedules : List ℕ
  contribs : List (List ℚ)
  total : List ℚ
deriving DecidableEq

/-- One step of the greedy offset scan of lines 208-216.  The accumulator's
inner `none` is Python's initial `best_peak = inf / best_f = None`; the outer
`none` is a raised exception (empty `max`). -/
def scanStep (base : List ℚ) (mi : ℕ) (di : ℚ) (M : ℕ)
    (acc : Option (Option (ℚ × ℕ × List ℚ))) (f0 : ℕ) :
    Option (Option (ℚ × ℕ × List ℚ)) :=
  match acc with
  | none => none
  | some best =>
    let f := f0 + 1
    let cand := compute_inventory_profile mi di f M
    match listMax (addL base cand) with
    | none => none
    | some p =>
      match best with
      | none => some (some (p, f, cand))
      | some (bp, bf, bc) =>
        if p < bp then some (some (p, f, cand)) else some (some (bp, bf, bc))

/-- The full offset scan `for f in range(1, m_i + 1)` of lines 208-216,
returning `(best_peak, best_f, best_contribution)`.  The result is `none`
when Python would raise (`M = 0`) or leave `best_f = None` (`m_i = 0`), both
of which end in an uncaught exception downstream. -/
def scanOffsets (base : List ℚ) (mi : ℕ) (di : ℚ) (M : ℕ) :
    Option (ℚ × ℕ × List ℚ) :=
  match (List.range mi).foldl (scanStep base mi di M) (some none) with
  | none => none
  | some none => none
  | some (some r) => some r

/-- Lines 200-221, one iteration: choose the best offset against the current
aggregate and commit it. -/
def greedyStep (M : ℕ) (st : StagState) (it : Item) : Option StagState :=
  match scanOffsets st.total it.mult it.dem M with
  | none => none
  | some (_, bf, bc) =>
    some ⟨st.schedules.set it.idx bf, st.contribs.set it.idx bc,
      addL st.total bc⟩

/-- Lines 184-197: initialise `schedules`/`contributions` and place the first
sorted item at offset `f = 1`. -/
def placeFirst (M N : ℕ) (it0 : Item) : StagState :=
  let c := compute_inventory_profile it0.mult it0.dem 1 M
  ⟨(List.replicate N 0).set it0.idx 1,
   (List.replicate N ([] : List ℚ)).set it0.idx c, c⟩

/-- Lines 179-221: the whole greedy construction phase.  Returns the horizon,
the sorted item list and the constructed state; `none` when Python raises
(`N = 0` at `items[0]`, or an empty-horizon `max`). -/
def greedyPhase (m : List ℕ) (d : List ℚ) (T_max : ℕ) :
    Option (ℕ × List Item × StagState) :=
  let N := m.length
  let M := horizonM m T_max
  match sortItems (mkItems m d) with
  | [] => none
  | it0 :: rest =>
    match rest.foldlM (greedyStep M) (placeFirst M N it0) with
    | none => none
    | some st => some (M, it0 :: rest, st)

/-- One step of the improvement-phase offset scan of lines 236-248.  The
accumulator carries `(current_peak, best_f, best_contribution, improved)`. -/
def passScanStep (base : List ℚ) (mi : ℕ) (di : ℚ) (M : ℕ) (cf : ℕ)
    (acc : Option (ℚ × ℕ × List ℚ × Bool)) (f0 : ℕ) :
    Option (ℚ × ℕ × List ℚ × Bool) :=
  match acc with
  | none => none
  | some (cp, bf, bc, imp) =>
    let f := f0 + 1
    if f = cf then some (cp, bf, bc, imp)
    else
      let cand := compute_inventory_profile mi di f M
      match listMax (addL base cand) with
      | none => none
      | some p =>
        if p < cp then some (p, f, cand, true) else some (cp, bf, bc, imp)

/-- Lines 229-254, one item of an improvement pass: scan the alternative
offsets and commit the best one if it strictly improved the running peak. -/
def passItem (M : ℕ) (acc : StagState × ℚ × Bool) (it : Item) :
    Option (StagState × ℚ × Bool) :=
  let st := acc.1
  let cf := st.schedules.getD it.idx 0
  let bc0 := st.contribs.getD it.idx []
  let base := subL st.total bc0
  match (List.range it.mult).foldl (passScanStep base it.mult it.dem M cf)
      (some (acc.2.1, cf, bc0, acc.2.2)) with
  | none => none
  | some (cp', bf, bc, imp') =>
    if bf = cf then some (st, cp', imp')
    else
      some (⟨st.schedules.set it.idx bf, st.contribs.set it.idx bc,
        addL base bc⟩, cp', imp')

/-- Lines 226-254, one full improvement pass: recompute `current_peak`, then
visit every item in order; returns the new state and the `improved` flag. -/
def passOnce (M : ℕ) (items : List Item) (st : StagState) :
    Option (StagState × Bool) :=
  match listMax st.total with
  | none => none
  | some cp =>
    match items.foldlM (passItem M) (st, cp, false) with
    | none => none
    | some r => some (r.1, r.2.2)

/-- Lines 224-254: the `while improved` loop, with explicit fuel standing in
for the (provably sufficient) number of passes. -/
def improveLoop (M : ℕ) (items : List Item) : ℕ → StagState → Option StagState
  | 0, _ => none
  | fuel + 1, st =>
    match passOnce M items st with
    | none => none
    | some (st', imp) =>
      if imp then improveLoop M items fuel st' else some st'

/-- Fuel that always suffices for the improvement loop: one pass per
configuration peak plus a final non-improving pass (`∏ mᵢ + 1`). -/
def staggeringFuel (m : List ℕ) : ℕ := m.foldl (· * ·) 1 + 1

/-- The algorithm up to the end of the improvement phase, also exposing the
horizon and the sorted item list. -/
def staggeringFull (m : List ℕ) (d : List ℚ) (T_max : ℕ) :
    Option (StagState × ℕ × List Item) :=
  match greedyPhase m d T_max with
  | none => none
  | some (M, items, st) =>
    match improveLoop M items (staggeringFuel m) st with
    | none => none
    | some st' => some (st', M, items)

/-- Round-half-to-even to an integer (the tie rule of Python's `round`). -/
def roundHalfEven (x : ℚ) : ℤ :=
  if Int.fract x = 1 / 2 then (if Even ⌊x⌋ then ⌊x⌋ else ⌊x⌋ + 1)
  else round x

/-- `round(H, 1)`: round to one decimal place, ties to even. -/
def round1 (x : ℚ) : ℚ := (roundHalfEven (10 * x) : ℚ) / 10

/-- `math.ceil(round(H, 1))` of line 258. -/
def ceilRound1 (x : ℚ) : ℤ := ⌈round1 x⌉

/-- `staggering_algorithm(m, d, T_max)` of lines 166-259, returning
`(schedules, H)`; `none` where Python raises an uncaught exception. -/
def staggering_algorithm (m : List ℕ) (d : List ℚ) (T_max : ℕ) :
    Option (List ℕ × ℤ) :=
  match staggeringFull m d T_max with
  | none => none
  | some (st, _, _) =>
    match listMax st.total with
    | none => none
    | some H => some (st.schedules, ceilRound1 H)

/-- Elementwise sum of the profiles of `items` at the offsets recorded in
`sched` — the specification-level aggregate, used to state invariants. -/
def sumProfiles (M : ℕ) (items : List Item) (sched : List ℕ) : List ℚ :=
  items.foldr
    (fun it acc =>
      addL (compute_inventory_profile it.mult it.dem (sched.getD it.idx 0) M) acc)
    (List.replicate M 0)

/-- The claim-level aggregate invariant: at every time step the aggregate
equals the sum of the placed items' stored contributions. -/
def contribSum (M : ℕ) (placed : List Item) (st : StagState) : Prop :=
  ∀ t, t < M →
    st.total.getD t 0 =
      (placed.map (fun it => (st.contribs.getD it.idx []).getD t 0)).sum

/-- The full algorithm-state invariant for a set of placed items. -/
def GoodState (M N : ℕ) (items : List Item) (st : StagState) : Prop :=
  st.schedules.length = N ∧
  st.contribs.length = N ∧
  st.total.length = M ∧
  (∀ it ∈ items, 1 ≤ st.schedules.getD it.idx 0) ∧
  (∀ it ∈ items, st.schedules.getD it.idx 0 ≤ it.mult) ∧
  (∀ it ∈ items,
    st.contribs.getD it.idx [] =
      compute_inventory_profile it.mult it.dem (st.schedules.getD it.idx 0) M) ∧
  st.total = sumProfiles M items st.schedules

/-- Well-formedness of an item list over `N` original indices. -/
def ItemsWF (N : ℕ) (items : List Item) : Prop :=
  (items.map Item.idx).Nodup ∧
  (∀ it ∈ items, it.idx < N) ∧
  (∀ it ∈ items, 1 ≤ it.mult)

/-- The inventory value of one item at one time step (`t` zero-based). -/
def pointVal (it : Item) (f : ℤ) (t : ℕ) : ℚ :=
  it.dem * ((it.mult : ℚ) - ((((t : ℤ) + 1 - f) % (it.mult : ℤ) : ℤ) : ℚ))

/-- Peak of the aggregate obtained by adding the item's profile at offset `f`
to `base` (the quantity `max(candidate_total)` of lines 210-211 and 241-242). -/
def candPeak (base : List ℚ) (mi : ℕ) (di : ℚ) (M : ℕ) (f : ℕ) : Option ℚ :=
  listMax (addL base (compute_inventory_profile mi di (f : ℤ) M))

/-- All aggregate sequences reachable by assigning each item of the list an
offset in `[1, mᵢ]` — the finite configuration space of the algorithm. -/
def allTotals (M : ℕ) : List Item → List (List ℚ)
  | [] => [List.replicate M 0]
  | it :: rest =>
    (List.range it.mult).flatMap
      (fun f0 => (allTotals M rest).map
        (fun tl => addL (compute_inventory_profile it.mult it.dem ((f0 + 1 : ℕ) : ℤ) M) tl))

/-- The finite set of peaks of all offset configurations. -/
def allPeaks (M : ℕ) (items : List Item) : Finset ℚ :=
  ((allTotals M items).filterMap listMax).toFinset

/-- Termination measure: the number of configuration peaks strictly below the
current peak. -/
def peaksBelow (M : ℕ) (items : List Item) (cp : ℚ) : ℕ :=
  ((allPeaks M items).filter (fun v => v < cp)).card

lemma getD_set_self {α : Type} (l : List α) (i : ℕ) (v dflt : α)
    (h : i < l.length) : (l.set i v).getD i dflt = v := by
  rw [List.getD_eq_getElem _ _ (by simpa using h)]
  exact List.getElem_set_self ..

lemma getD_set_ne {α : Type} (l : List α) {i j : ℕ} (v dflt : α)
    (h : i ≠ j) : (l.set i v).getD j dflt = l.getD j dflt := by
  simp [List.getD, List.getElem?_set_ne h]

lemma length_profile (mi : ℕ) (di : ℚ) (f : ℤ) (M : ℕ) :
    (compute_inventory_profile mi di f M).length = M := by
  simp only [compute_inventory_profile, List.length_map, List.length_range]

lemma getElem_profile (mi : ℕ) (di : ℚ) (f : ℤ) (M : ℕ) (t : ℕ)
    (h2 : t < (compute_inventory_profile mi di f M).length) :
    (compute_inventory_profile mi di f M)[t] = pointVal ⟨0, mi, di⟩ f t := by
  simp only [compute_inventory_profile, List.getElem_map, List.getElem_range, pointVal]

lemma length_addL (a b : List ℚ) : (addL a b).length = min a.length b.length :=
  List.length_zipWith ..

lemma length_subL (a b : List ℚ) : (subL a b).length = min a.length b.length :=
  List.length_zipWith ..

lemma getElem_addL (a b : List ℚ) (t : ℕ) (ha : t < a.length) (hb : t < b.length)
    (hab : t < (addL a b).length) : (addL a b)[t] = a[t] + b[t] :=
  List.getElem_zipWith ..

lemma getElem_subL (a b : List ℚ) (t : ℕ) (ha : t < a.length) (hb : t < b.length)
    (hab : t < (subL a b).length) : (subL a b)[t] = a[t] - b[t] :=
  List.getElem_zipWith ..

lemma addL_replicate_zero (a : List ℚ) (M : ℕ) (h : a.length = M) :
    addL a (List.replicate M 0) = a := by
  apply List.ext_getElem (by simp [length_addL, h])
  intro t h1 h2
  rw [getElem_addL a _ t h2 (by simp; omega) h1]
  simp

lemma foldl_max_le (l : List ℚ) : ∀ a : ℚ, a ≤ l.foldl max a := by
  induction l with
  | nil => intro a; simp
  | cons b l ih =>
    intro a
    calc a ≤ max a b := le_max_left ..
    _ ≤ l.foldl max (max a b) := ih _

lemma mem_le_foldl_max (l : List ℚ) : ∀ (a : ℚ), ∀ x ∈ l, x ≤ l.foldl max a := by
  induction l with
  | nil => intro a x hx; simp at hx
  | cons b l ih =>
    intro a x hx
    rcases List.mem_cons.mp hx with rfl | hx
    · calc x ≤ max a x := le_max_right ..
      _ ≤ l.foldl max (max a x) := foldl_max_le ..
    · exact ih _ x hx

lemma foldl_max_mem (l : List ℚ) : ∀ a : ℚ, l.foldl max a = a ∨ l.foldl max a ∈ l := by
  induction l with
  | nil => intro a; simp
  | cons b l ih =>
    intro a
    rcases ih (max a b) with h | h
    · rcases max_cases a b with ⟨he, _⟩ | ⟨he, _⟩
      · exact Or.inl (by rw [List.foldl_cons, h, he])
      · exact Or.inr (by rw [List.foldl_cons, h, he]; exact List.mem_cons_self ..)
    · exact Or.inr (List.mem_cons_of_mem _ h)

lemma listMax_spec (l : List ℚ) (v : ℚ) (h : listMax l = some v) :
    v ∈ l ∧ ∀ x ∈ l, x ≤ v := by
  match l with
  | [] => simp [listMax] at h
  | a :: l =>
    simp only [listMax, Option.some.injEq] at h
    subst h
    refine ⟨?_, ?_⟩
    · rcases foldl_max_mem l a with h | h
      · rw [h]; exact List.mem_cons_self ..
      · exact List.mem_cons_of_mem _ h
    · intro x hx
      rcases List.mem_cons.mp hx with rfl | hx
      · exact foldl_max_le ..
      · exact mem_le_foldl_max _ _ x hx

lemma listMax_isSome (l : List ℚ) (h : l ≠ []) : ∃ v, listMax l = some v := by
  match l with
  | [] => simp at h
  | a :: l => exact ⟨_, rfl⟩

lemma listMax_eq_of (l : List ℚ) (v : ℚ) (hmem : v ∈ l) (hub : ∀ x ∈ l, x ≤ v) :
    listMax l = some v := by
  obtain ⟨w, hw⟩ := listMax_isSome l (List.ne_nil_of_mem hmem)
  obtain ⟨hwmem, hwub⟩ := listMax_spec l w hw
  rw [hw, Option.some.injEq]
  exact le_antisymm (hub w hwmem) (hwub v hmem)

lemma pointVal_le (it : Item) (f : ℤ) (t : ℕ) (hm : 1 ≤ it.mult) (hd : 0 ≤ it.dem) :
    pointVal it f t ≤ it.dem * it.mult := by
  unfold pointVal
  have hne : (it.mult : ℤ) ≠ 0 := by exact_mod_cast Nat.one_le_iff_ne_zero.mp hm
  have h0 : (0 : ℤ) ≤ ((t : ℤ) + 1 - f) % (it.mult : ℤ) := Int.emod_nonneg _ hne
  have h0' : (0 : ℚ) ≤ ((((t : ℤ) + 1 - f) % (it.mult : ℤ) : ℤ) : ℚ) := by
    exact_mod_cast h0
  have : (it.mult : ℚ) - ((((t : ℤ) + 1 - f) % (it.mult : ℤ) : ℤ) : ℚ) ≤ (it.mult : ℚ) := by
    linarith
  exact mul_le_mul_of_nonneg_left this hd

lemma pointVal_offset (it : Item) (f : ℕ) (hf : 1 ≤ f) :
    pointVal it (f : ℤ) (f - 1) = it.dem * it.mult := by
  unfold pointVal
  have : ((f - 1 : ℕ) : ℤ) + 1 - (f : ℤ) = 0 := by
    have : (1 : ℕ) ≤ f := hf
    push_cast [this]
    ring
  rw [this, Int.zero_emod]
  simp

lemma listMax_profile (mi : ℕ) (di : ℚ) (f M : ℕ) (hm : 1 ≤ mi) (hd : 0 ≤ di)
    (hf1 : 1 ≤ f) (hfM : f ≤ M) :
    listMax (compute_inventory_profile mi di (f : ℤ) M) = some (di * mi) := by
  apply listMax_eq_of
  · have hb : f - 1 < (compute_inventory_profile mi di (f : ℤ) M).length := by
      rw [length_profile]
      omega
    have hv : (compute_inventory_profile mi di (f : ℤ) M)[f-1] = di * mi := by
      rw [getElem_profile _ _ _ _ _ hb]
      exact pointVal_offset ⟨0, mi, di⟩ f hf1
    exact hv ▸ List.getElem_mem _
  · intro x hx
    obtain ⟨i, hi, hx⟩ := List.mem_iff_getElem.mp hx
    rw [← hx, getElem_profile _ _ _ _ _ hi]
    exact pointVal_le ⟨0, mi, di⟩ _ _ hm hd

lemma sumProfiles_cons (M : ℕ) (it : Item) (items : List Item) (sched : List ℕ) :
    sumProfiles M (it :: items) sched =
      addL (compute_inventory_profile it.mult it.dem (sched.getD it.idx 0) M)
        (sumProfiles M items sched) := rfl

lemma length_sumProfiles (M : ℕ) (items : List Item) (sched : List ℕ) :
    (sumProfiles M items sched).length = M := by
  induction items with
  | nil => simp [sumProfiles]
  | cons it items ih =>
    rw [sumProfiles_cons, length_addL, length_profile, ih, min_self]

lemma getElem_sumProfiles (M : ℕ) (items : List Item) (sched : List ℕ)
    (t : ℕ) (h : t < M)
    (h2 : t < (sumProfiles M items sched).length) :
    (sumProfiles M items sched)[t] =
      (items.map (fun it => pointVal it (sched.getD it.idx 0) t)).sum := by
  induction items with
  | nil => simp [sumProfiles, h]
  | cons it items ih =>
    rw [List.getElem_of_eq (sumProfiles_cons M it items sched) _,
      getElem_addL _ _ t (by rw [length_profile]; exact h)
        (by rw [length_sumProfiles]; exact h)
        (by rw [length_addL, length_profile, length_sumProfiles, min_self]; exact h),
      getElem_profile _ _ _ _ t (by rw [length_profile]; exact h),
      ih (by rw [length_sumProfiles]; exact h), List.map_cons, List.sum_cons]
    rfl

lemma lcm_eq_natLcm (a b : ℕ) : lcm a b = Nat.lcm a b := by
  unfold lcm
  by_cases ha : a = 0
  · simp [ha, Nat.lcm]
  · by_cases hb : b = 0
    · simp [hb, Nat.lcm]
    · rw [if_pos ⟨ha, hb⟩]; rfl

lemma foldl_lcm_pos (xs : List ℕ) : ∀ x, 1 ≤ x → (∀ y ∈ xs, 1 ≤ y) →
    1 ≤ xs.foldl lcm x := by
  induction xs with
  | nil => intro x hx _; simpa using hx
  | cons y ys ih =>
    intro x hx h
    rw [List.foldl_cons]
    apply ih
    · rw [lcm_eq_natLcm]
      exact Nat.lcm_pos hx (h y (List.mem_cons_self ..))
    · intro z hz
      exact h z (List.mem_cons_of_mem _ hz)

lemma lcm_of_list_pos (nums : List ℕ) (h : ∀ x ∈ nums, 1 ≤ x) :
    1 ≤ lcm_of_list nums := by
  match nums with
  | [] => exact le_refl 1
  | x :: xs =>
    exact foldl_lcm_pos xs x (h x (List.mem_cons_self ..))
      (fun y hy => h y (List.mem_cons_of_mem _ hy))

lemma horizon_pos (m : List ℕ) (T_max : ℕ) (hm : ∀ x ∈ m, 1 ≤ x)
    (hT : 1 ≤ T_max) : 1 ≤ horizonM m T_max := by
  unfold horizonM
  simp only []
  split
  · exact lcm_of_list_pos m hm
  · exact hT

lemma mkItems_length (m : List ℕ) (d : List ℚ) : (mkItems m d).length = m.length := by
  simp [mkItems]

lemma mkItems_nodup_idx (m : List ℕ) (d : List ℚ) :
    ((mkItems m d).map Item.idx).Nodup := by
  unfold mkItems
  rw [List.map_map]
  have : (Item.idx ∘ fun i => (⟨i, m.getD i 0, d.getD i 0⟩ : Item)) = id := rfl
  rw [this, List.map_id]
  exact List.nodup_range _

lemma mem_mkItems (m : List ℕ) (d : List ℚ) (it : Item) (h : it ∈ mkItems m d) :
    it.idx < m.length ∧ it.mult = m.getD it.idx 0 ∧ it.dem = d.getD it.idx 0 := by
  unfold mkItems at h
  obtain ⟨i, hi, rfl⟩ := List.mem_map.mp h
  exact ⟨by simpa using List.mem_range.mp hi, rfl, rfl⟩

lemma mem_mkItems_mult (m : List ℕ) (d : List ℚ) (it : Item)
    (h : it ∈ mkItems m d) (hm : ∀ x ∈ m, 1 ≤ x) : 1 ≤ it.mult := by
  obtain ⟨hlt, hmult, _⟩ := mem_mkItems m d it h
  rw [hmult, List.getD_eq_getElem _ _ hlt]
  exact hm _ (List.getElem_mem _)

lemma sortItems_perm (l : List Item) : (sortItems l).Perm l :=
  List.perm_insertionSort itemLE l

lemma sortItems_nodup_idx (m : List ℕ) (d : List ℚ) :
    ((sortItems (mkItems m d)).map Item.idx).Nodup :=
  (((sortItems_perm (mkItems m d)).map Item.idx).nodup_iff).mpr (mkItems_nodup_idx m d)

lemma sortItems_sorted (l : List Item) : (sortItems l).Pairwise itemLE :=
  List.sorted_insertionSort itemLE l

lemma sortItems_pairwise_strict (m : List ℕ) (d : List ℚ) :
    (sortItems (mkItems m d)).Pairwise
      (fun a b => lot a < lot b ∨ (lot a = lot b ∧ a.idx < b.idx)) := by
  have h1 := sortItems_sorted (mkItems m d)
  have h2 : (sortItems (mkItems m d)).Pairwise (fun a b => a.idx ≠ b.idx) :=
    List.pairwise_map.mp (sortItems_nodup_idx m d)
  refine (h1.and h2).imp ?_
  rintro a b ⟨hle, hne⟩
  rcases hle with h | ⟨h, h'⟩
  · exact Or.inl h
  · exact Or.inr ⟨h, lt_of_le_of_ne h' hne⟩

lemma candPeak_isSome (base : List ℚ) (mi : ℕ) (di : ℚ) (M : ℕ) (f : ℕ)
    (hM : 1 ≤ M) (hbase : base.length = M) :
    ∃ q, candPeak base mi di M f = some q := by
  apply listMax_isSome
  intro hnil
  have := congrArg List.length hnil
  simp [length_addL, hbase, length_profile] at this
  omega

/-- Invariant of the greedy offset scan after the first `n` candidate offsets:
either no offset was tried yet, or the accumulator holds the earliest
peak-minimizing offset among `1..n` together with its contribution and peak. -/
lemma scan_inv (base : List ℚ) (mi : ℕ) (di : ℚ) (M : ℕ)
    (hM : 1 ≤ M) (hbase : base.length = M) (n : ℕ) :
    (n = 0 → (List.range n).foldl (scanStep base mi di M) (some none) = some none) ∧
    (1 ≤ n → ∃ p bf bc,
      (List.range n).foldl (scanStep base mi di M) (some none) = some (some (p, bf, bc)) ∧
      1 ≤ bf ∧ bf ≤ n ∧
      bc = compute_inventory_profile mi di (bf : ℤ) M ∧
      candPeak base mi di M bf = some p ∧
      (∀ f, 1 ≤ f → f ≤ n → ∀ q, candPeak base mi di M f = some q → p ≤ q) ∧
      (∀ f, 1 ≤ f → f < bf → ∀ q, candPeak base mi di M f = some q → p < q)) := by
  induction n with
  | zero => exact ⟨fun _ => rfl, fun h => absurd h (by omega)⟩
  | succ n ih =>
    refine ⟨fun h => absurd h (by omega), fun _ => ?_⟩
    rw [List.range_succ, List.foldl_append, List.foldl_cons, List.foldl_nil]
    obtain ⟨q, hq⟩ := candPeak_isSome base mi di M (n + 1) hM hbase
    rcases Nat.eq_zero_or_pos n with rfl | hn
    · refine ⟨q, 1, compute_inventory_profile mi di 1 M, ?_, le_refl 1, le_refl 1,
        by norm_num, by simpa [candPeak] using hq, ?_, ?_⟩
      · rw [(ih.1 rfl : _ = some none)]
        simp only [scanStep]
        have hqq : listMax (addL base (compute_inventory_profile mi di ((0 + 1 : ℕ) : ℤ) M))
            = some q := hq
        simp only [Nat.cast_one, Nat.cast_ofNat, Nat.zero_add] at hqq ⊢
        simp only [hqq]
      · intro f hf1 hf2 q' hq'
        have hf : f = 1 := by omega
        subst hf
        have hqe : q = q' := Option.some.inj (hq.symm.trans hq')
        exact le_of_eq hqe
      · intro f hf1 hf2
        omega
    · obtain ⟨p, bf, bc, hA, hbf1, hbfn, hbc, hpk, hle, hlt⟩ := ih.2 hn
      rw [hA]
      simp only [scanStep]
      have hq' : listMax (addL base (compute_inventory_profile mi di ((n + 1 : ℕ) : ℤ) M))
          = some q := hq
      simp only [hq']
      by_cases hcmp : q < p
      · rw [if_pos hcmp]
        refine ⟨q, n + 1, _, rfl, by omega, le_refl _, rfl, hq, ?_, ?_⟩
        · intro f hf1 hf2 r hr
          rcases Nat.lt_or_ge f (n + 1) with hf | hf
          · have := hle f hf1 (by omega) r hr
            linarith
          · have hfe : f = n + 1 := by omega
            subst hfe
            have hqe : q = r := Option.some.inj (hq.symm.trans hr)
            exact le_of_eq hqe
        · intro f hf1 hf2 r hr
          have := hle f hf1 (by omega) r hr
          linarith
      · rw [if_neg hcmp]
        push_neg at hcmp
        refine ⟨p, bf, bc, rfl, hbf1, by omega, hbc, hpk, ?_, hlt⟩
        intro f hf1 hf2 r hr
        rcases Nat.lt_or_ge f (n + 1) with hf | hf
        · exact hle f hf1 (by omega) r hr
        · have hfe : f = n + 1 := by omega
          subst hfe
          have hqe : q = r := Option.some.inj (hq.symm.trans hr)
          exact hqe ▸ hcmp

/-- The greedy offset scan of lines 208-216 returns the smallest offset in
`[1, mᵢ]` minimizing the candidate peak, with its contribution and peak. -/
lemma scanOffsets_spec (base : List ℚ) (mi : ℕ) (di : ℚ) (M : ℕ)
    (hmi : 1 ≤ mi) (hM : 1 ≤ M) (hbase : base.length = M) :
    ∃ p bf bc, scanOffsets base mi di M = some (p, bf, bc) ∧
      1 ≤ bf ∧ bf ≤ mi ∧
      bc = compute_inventory_profile mi di (bf : ℤ) M ∧
      candPeak base mi di M bf = some p ∧
      (∀ f, 1 ≤ f → f ≤ mi → ∀ q, candPeak base mi di M f = some q → p ≤ q) ∧
      (∀ f, 1 ≤ f → f < bf → ∀ q, candPeak base mi di M f = some q → p < q) := by
  obtain ⟨p, bf, bc, hA, h1, h2, h3, h4, h5, h6⟩ :=
    (scan_inv base mi di M hM hbase mi).2 hmi
  exact ⟨p, bf, bc, by rw [scanOffsets, hA], h1, h2, h3, h4, h5, h6⟩

lemma sum_pointVal_congr (items : List Item) (sched sched' : List ℕ) (t : ℕ)
    (h : ∀ it ∈ items, sched'.getD it.idx 0 = sched.getD it.idx 0) :
    (items.map (fun it => pointVal it (sched'.getD it.idx 0) t)).sum =
      (items.map (fun it => pointVal it (sched.getD it.idx 0) t)).sum := by
  congr 1
  apply List.map_congr_left
  intro it hit
  rw [h it hit]

/-- Establishing the invariant for the first placed item (lines 193-197). -/
lemma goodState_placeFirst (M N : ℕ) (it0 : Item) (hidx : it0.idx < N)
    (hmi : 1 ≤ it0.mult) : GoodState M N [it0] (placeFirst M N it0) := by
  have hlenN : (List.replicate N (0 : ℕ)).length = N := by simp
  have hsched : ((List.replicate N 0).set it0.idx 1).getD it0.idx 0 = 1 :=
    getD_set_self _ _ _ _ (by simpa using hidx)
  have hcontr : ((List.replicate N ([] : List ℚ)).set it0.idx
      (compute_inventory_profile it0.mult it0.dem 1 M)).getD it0.idx [] =
      compute_inventory_profile it0.mult it0.dem 1 M :=
    getD_set_self _ _ _ _ (by simpa using hidx)
  refine ⟨by simp [placeFirst], by simp [placeFirst], by simp [placeFirst, length_profile],
    ?_, ?_, ?_, ?_⟩
  · intro it hit
    rw [List.mem_singleton.mp hit]
    exact le_of_eq hsched.symm
  · intro it hit
    rw [List.mem_singleton.mp hit]
    rw [show (placeFirst M N it0).schedules = (List.replicate N 0).set it0.idx 1 from rfl,
      hsched]
    exact hmi
  · intro it hit
    rw [List.mem_singleton.mp hit]
    show ((List.replicate N ([] : List ℚ)).set it0.idx _).getD it0.idx [] = _
    rw [hcontr]
    congr 1
    rw [show (placeFirst M N it0).schedules = (List.replicate N 0).set it0.idx 1 from rfl,
      hsched]
    norm_num
  · show compute_inventory_profile it0.mult it0.dem 1 M = sumProfiles M [it0] _
    rw [sumProfiles_cons]
    show _ = addL (compute_inventory_profile it0.mult it0.dem _ M) (sumProfiles M [] _)
    rw [show (placeFirst M N it0).schedules = (List.replicate N 0).set it0.idx 1 from rfl,
      hsched]
    rw [show sumProfiles M [] ((List.replicate N 0).set it0.idx 1) = List.replicate M 0
      from rfl]
    rw [addL_replicate_zero _ _ (length_profile ..)]
    norm_num

/-- The greedy step (lines 200-221) succeeds and preserves the invariant,
extending the placed set. -/
lemma goodState_greedyStep (M N : ℕ) (placed : List Item) (st : StagState) (it : Item)
    (hgs : GoodState M N placed st) (hM : 1 ≤ M) (hidx : it.idx < N) (hmi : 1 ≤ it.mult)
    (hnotin : it.idx ∉ placed.map Item.idx) :
    ∃ bf bc st', greedyStep M st it = some st' ∧
      st' = ⟨st.schedules.set it.idx bf, st.contribs.set it.idx bc, addL st.total bc⟩ ∧
      1 ≤ bf ∧ bf ≤ it.mult ∧
      bc = compute_inventory_profile it.mult it.dem (bf : ℤ) M ∧
      GoodState M N (placed ++ [it]) st' := by
  obtain ⟨hsl, hcl, htl, hlb, hub, hce, hte⟩ := hgs
  obtain ⟨p, bf, bc, hscan, hbf1, hbf2, hbc, hpk, hle, hlt⟩ :=
    scanOffsets_spec st.total it.mult it.dem M hmi hM htl
  refine ⟨bf, bc, _, ?_, rfl, hbf1, hbf2, hbc, ?_⟩
  · rw [greedyStep, hscan]
  have hbcl : bc.length = M := by rw [hbc]; exact length_profile ..
  have hsetS : (st.schedules.set it.idx bf).getD it.idx 0 = bf :=
    getD_set_self _ _ _ _ (by omega)
  have hsetC : (st.contribs.set it.idx bc).getD it.idx [] = bc :=
    getD_set_self _ _ _ _ (by omega)
  have hne : ∀ j ∈ placed, it.idx ≠ j.idx := by
    intro j hj he
    exact hnotin (he ▸ List.mem_map_of_mem Item.idx hj)
  refine ⟨by simpa using hsl, by simpa using hcl,
    by simp [length_addL, htl, hbcl], ?_, ?_, ?_, ?_⟩
  · intro x hx
    rcases List.mem_append.mp hx with hx | hx
    · show 1 ≤ (st.schedules.set it.idx bf).getD x.idx 0
      rw [getD_set_ne _ _ _ (hne x hx)]
      exact hlb x hx
    · rw [List.mem_singleton.mp hx]
      show 1 ≤ (st.schedules.set it.idx bf).getD it.idx 0
      rw [hsetS]
      exact hbf1
  · intro x hx
    rcases List.mem_append.mp hx with hx | hx
    · show (st.schedules.set it.idx bf).getD x.idx 0 ≤ x.mult
      rw [getD_set_ne _ _ _ (hne x hx)]
      exact hub x hx
    · rw [List.mem_singleton.mp hx]
      show (st.schedules.set it.idx bf).getD it.idx 0 ≤ it.mult
      rw [hsetS]
      exact hbf2
  · intro x hx
    rcases List.mem_append.mp hx with hx | hx
    · show (st.contribs.set it.idx bc).getD x.idx [] =
        compute_inventory_profile x.mult x.dem
          (((st.schedules.set it.idx bf).getD x.idx 0 : ℕ) : ℤ) M
      rw [getD_set_ne _ _ _ (hne x hx), getD_set_ne _ _ _ (hne x hx)]
      exact hce x hx
    · rw [List.mem_singleton.mp hx]
      show (st.contribs.set it.idx bc).getD it.idx [] =
        compute_inventory_profile it.mult it.dem
          (((st.schedules.set it.idx bf).getD it.idx 0 : ℕ) : ℤ) M
      rw [hsetC, hsetS, hbc]
  · show addL st.total bc = sumProfiles M (placed ++ [it]) (st.schedules.set it.idx bf)
    subst hbc
    apply List.ext_getElem (by simp [length_addL, htl, length_profile, length_sumProfiles])
    intro t h1 h2
    have htM : t < M := by simpa [length_addL, htl, length_profile] using h1
    rw [getElem_addL _ _ t (by omega) (by rw [length_profile]; exact htM) h1,
      getElem_sumProfiles _ _ _ _ htM h2, List.map_append, List.sum_append,
      getElem_profile _ _ _ _ t (by rw [length_profile]; exact htM)]
    have h3 : st.total[t] =
        (placed.map (fun j => pointVal j (st.schedules.getD j.idx 0) t)).sum :=
      (List.getElem_of_eq hte _).trans (getElem_sumProfiles M placed st.schedules t htM
        (by rw [length_sumProfiles]; exact htM))
    rw [h3, sum_pointVal_congr placed st.schedules
        (st.schedules.set it.idx bf) t (fun j hj => getD_set_ne _ _ _ (hne j hj))]
    simp only [List.map_cons, List.map_nil, List.sum_cons, List.sum_nil, add_zero, hsetS]
    rfl

lemma greedyStep_eq (M : ℕ) (st st1 : StagState) (it : Item)
    (h : greedyStep M st it = some st1) :
    ∃ bf bc, st1 = ⟨st.schedules.set it.idx bf, st.contribs.set it.idx bc,
      addL st.total bc⟩ := by
  unfold greedyStep at h
  rcases hscan : scanOffsets st.total it.mult it.dem M with _ | ⟨p, bf, bc⟩
  · rw [hscan] at h; exact absurd h (by simp)
  · rw [hscan] at h
    exact ⟨bf, bc, (Option.some.inj h).symm⟩

/-- The greedy fold over the remaining items succeeds and yields the invariant
for all placed items. -/
lemma goodState_greedyFold (M N : ℕ) (rest : List Item) :
    ∀ (placed : List Item) (st : StagState), GoodState M N placed st → 1 ≤ M →
    ((placed ++ rest).map Item.idx).Nodup →
    (∀ it ∈ placed ++ rest, it.idx < N) →
    (∀ it ∈ rest, 1 ≤ it.mult) →
    ∃ st', rest.foldlM (greedyStep M) st = some st' ∧
      GoodState M N (placed ++ rest) st' := by
  induction rest with
  | nil =>
    intro placed st hgs _ _ _ _
    exact ⟨st, rfl, by simpa using hgs⟩
  | cons it rest ih =>
    intro placed st hgs hM hnd hlt hmu
    have hnotin : it.idx ∉ placed.map Item.idx := by
      rw [List.map_append, List.nodup_append] at hnd
      intro hin
      exact hnd.2.2 hin (by simp)
    obtain ⟨bf, bc, st1, hstep, hst1, _, _, _, hgs1⟩ :=
      goodState_greedyStep M N placed st it hgs hM
        (hlt it (by simp)) (hmu it (by simp)) hnotin
    have hnd' : (((placed ++ [it]) ++ rest).map Item.idx).Nodup := by
      rw [List.append_assoc]
      simpa using hnd
    have hlt' : ∀ x ∈ (placed ++ [it]) ++ rest, x.idx < N := by
      intro x hx
      apply hlt
      rw [List.append_assoc] at hx
      simpa using hx
    obtain ⟨st', hfold, hgs'⟩ := ih (placed ++ [it]) st1 hgs1 hM hnd' hlt'
      (fun x hx => hmu x (List.mem_cons_of_mem _ hx))
    refine ⟨st', ?_, by rwa [List.append_assoc] at hgs'; ⟩
    rw [List.foldlM_cons, hstep]
    simpa using hfold

/-- Later greedy commits never touch the schedule entry of an index outside
the remaining items. -/
lemma greedyFold_preserves (M : ℕ) (rest : List Item) :
    ∀ (st st' : StagState) (j : ℕ),
    rest.foldlM (greedyStep M) st = some st' → j ∉ rest.map Item.idx →
    st'.schedules.getD j 0 = st.schedules.getD j 0 := by
  induction rest with
  | nil =>
    intro st st' j h _
    cases Option.some.inj h
    rfl
  | cons it rest ih =>
    intro st st' j h hj
    rw [List.foldlM_cons] at h
    rcases hstep : greedyStep M st it with _ | st1
    · rw [hstep] at h; simp at h
    · rw [hstep] at h
      simp only [Option.bind_eq_bind, Option.some_bind] at h
      obtain ⟨bf, bc, hst1⟩ := greedyStep_eq M st st1 it hstep
      have hj1 : j ∉ rest.map Item.idx := fun hx => hj (List.mem_cons_of_mem _ hx)
      have hjne : it.idx ≠ j := by
        intro he
        exact hj (he ▸ List.mem_cons_self ..)
      rw [ih st1 st' j h hj1, hst1]
      exact getD_set_ne _ _ _ hjne

/-- The greedy construction phase (lines 179-221) succeeds on valid input and
establishes the invariant; the first sorted item keeps offset `1`. -/
lemma greedyPhase_spec (m : List ℕ) (d : List ℚ) (T_max : ℕ)
    (hm : ∀ x ∈ m, 1 ≤ x) (hN : m ≠ []) (hT : 1 ≤ T_max) :
    ∃ st, greedyPhase m d T_max = some (horizonM m T_max, sortItems (mkItems m d), st) ∧
      GoodState (horizonM m T_max) m.length (sortItems (mkItems m d)) st ∧
      (∀ it0 rest, sortItems (mkItems m d) = it0 :: rest →
        st.schedules.getD it0.idx 0 = 1) := by
  have hM : 1 ≤ horizonM m T_max := horizon_pos m T_max hm hT
  rcases hsort : sortItems (mkItems m d) with _ | ⟨it0, rest⟩
  · exfalso
    have := (sortItems_perm (mkItems m d)).length_eq
    rw [hsort, mkItems_length] at this
    exact hN (List.length_eq_zero.mp this.symm)
  have hmemmk : ∀ it ∈ it0 :: rest, it ∈ mkItems m d := by
    intro it hit
    exact (sortItems_perm (mkItems m d)).subset (hsort ▸ hit)
  have hltN : ∀ it ∈ it0 :: rest, it.idx < m.length :=
    fun it hit => (mem_mkItems m d it (hmemmk it hit)).1
  have hmu : ∀ it ∈ it0 :: rest, 1 ≤ it.mult :=
    fun it hit => mem_mkItems_mult m d it (hmemmk it hit) hm
  have hnd : ((it0 :: rest).map Item.idx).Nodup := hsort ▸ sortItems_nodup_idx m d
  have hgs0 : GoodState (horizonM m T_max) m.length [it0]
      (placeFirst (horizonM m T_max) m.length it0) :=
    goodState_placeFirst _ _ it0 (hltN it0 (by simp)) (hmu it0 (by simp))
  obtain ⟨st', hfold, hgs'⟩ := goodState_greedyFold (horizonM m T_max) m.length rest
    [it0] (placeFirst (horizonM m T_max) m.length it0) hgs0 hM
    (by simpa using hnd) (by simpa using hltN) (fun x hx => hmu x (by simp [hx]))
  refine ⟨st', ?_, by simpa using hgs', ?_⟩
  · unfold greedyPhase
    simp only [hsort, hfold]
  · intro it0' rest' hsort'
    injection hsort' with h1 h2
    subst h1
    subst h2
    have hpres := greedyFold_preserves (horizonM m T_max) rest
      (placeFirst (horizonM m T_max) m.length it0) st' it0.idx hfold
      (by
        intro hin
        rw [List.map_cons] at hnd
        exact (List.nodup_cons.mp hnd).1 hin)
    rw [hpres]
    exact getD_set_self _ _ _ _ (by simpa using hltN it0 (by simp))

/-- C1: the greedy construction processes items in ascending order of lot
size `mᵢ·dᵢ` with ties broken by original index (the sorted list is a
permutation of the items, pairwise strictly ordered by (lot, index)); the
first sorted item is assigned offset `1` unconditionally; every subsequent
item is assigned, by `greedyStep`, the offset in `[1, mᵢ]` whose candidate
peak over the current aggregate is minimal, the smallest such offset being
chosen on ties (strictly smaller peak than every earlier offset). -/
theorem claim_C1_greedy (m : List ℕ) (d : List ℚ) (T_max : ℕ)
    (hlen : d.length = m.length) (hm : ∀ x ∈ m, 1 ≤ x) (hd : ∀ x ∈ d, 0 ≤ x)
    (hN : m ≠ []) (hT : 1 ≤ T_max) :
    (sortItems (mkItems m d)).Perm (mkItems m d) ∧
    (sortItems (mkItems m d)).Pairwise
      (fun a b => lot a < lot b ∨ (lot a = lot b ∧ a.idx < b.idx)) ∧
    (∃ st, greedyPhase m d T_max =
        some (horizonM m T_max, sortItems (mkItems m d), st) ∧
      ∀ it0 rest, sortItems (mkItems m d) = it0 :: rest →
        st.schedules.getD it0.idx 0 = 1) ∧
    (∀ st it st', st.total.length = horizonM m T_max → 1 ≤ it.mult →
      greedyStep (horizonM m T_max) st it = some st' →
      ∃ bf bc p, st' = ⟨st.schedules.set it.idx bf, st.contribs.set it.idx bc,
          addL st.total bc⟩ ∧
        1 ≤ bf ∧ bf ≤ it.mult ∧
        bc = compute_inventory_profile it.mult it.dem (bf : ℤ) (horizonM m T_max) ∧
        candPeak st.total it.mult it.dem (horizonM m T_max) bf = some p ∧
        (∀ f q, 1 ≤ f → f ≤ it.mult →
          candPeak st.total it.mult it.dem (horizonM m T_max) f = some q →
          p ≤ q ∧ (f < bf → p < q))) := by
  refine ⟨sortItems_perm _, sortItems_pairwise_strict m d, ?_, ?_⟩
  · obtain ⟨st, h1, _, h3⟩ := greedyPhase_spec m d T_max hm hN hT
    exact ⟨st, h1, h3⟩
  · intro st it st' htl hmi hstep
    obtain ⟨p, bf, bc, hscan, hbf1, hbf2, hbc, hpk, hle, hlt⟩ :=
      scanOffsets_spec st.total it.mult it.dem (horizonM m T_max) hmi
        (horizon_pos m T_max hm hT) htl
    rw [greedyStep, hscan] at hstep
    refine ⟨bf, bc, p, (Option.some.inj hstep).symm, hbf1, hbf2, hbc, hpk, ?_⟩
    intro f q hf1 hf2 hq
    exact ⟨hle f hf1 hf2 q hq, fun hlt' => hlt f hf1 hlt' q hq⟩

/-- C1 witness: the theorem instantiated at `m = [2,2]`, `d = [1,1]`,
`T_max = 10000`. -/
theorem claim_C1_greedy_witness :
    (sortItems (mkItems [2, 2] [1, 1])).Perm (mkItems [2, 2] [1, 1]) ∧
    (sortItems (mkItems [2, 2] [1, 1])).Pairwise
      (fun a b => lot a < lot b ∨ (lot a = lot b ∧ a.idx < b.idx)) ∧
    (∃ st, greedyPhase [2, 2] [1, 1] 10000 =
        some (horizonM [2, 2] 10000, sortItems (mkItems [2, 2] [1, 1]), st) ∧
      ∀ it0 rest, sortItems (mkItems [2, 2] [1, 1]) = it0 :: rest →
        st.schedules.getD it0.idx 0 = 1) ∧
    (∀ st it st', st.total.length = horizonM [2, 2] 10000 → 1 ≤ it.mult →
      greedyStep (horizonM [2, 2] 10000) st it = some st' →
      ∃ bf bc p, st' = ⟨st.schedules.set it.idx bf, st.contribs.set it.idx bc,
          addL st.total bc⟩ ∧
        1 ≤ bf ∧ bf ≤ it.mult ∧
        bc = compute_inventory_profile it.mult it.dem (bf : ℤ) (horizonM [2, 2] 10000) ∧
        candPeak st.total it.mult it.dem (horizonM [2, 2] 10000) bf = some p ∧
        (∀ f q, 1 ≤ f → f ≤ it.mult →
          candPeak st.total it.mult it.dem (horizonM [2, 2] 10000) f = some q →
          p ≤ q ∧ (f < bf → p < q))) :=
  claim_C1_greedy [2, 2] [1, 1] 10000 (by norm_num) (by norm_num) (by norm_num)
    (by simp) (by norm_num)

lemma addL_subL_self (x c : List ℚ) (M : ℕ) (hx : x.length = M) (hc : c.length = M) :
    addL (subL x x) c = c := by
  apply List.ext_getElem (by simp [length_addL, length_subL, hx, hc])
  intro t h1 h2
  have htM : t < M := by simpa [length_addL, length_subL, hx, hc] using h1
  rw [getElem_addL _ _ t (by rw [length_subL]; omega) (by omega) h1,
    getElem_subL _ _ t (by omega) (by omega) (by rw [length_subL]; omega)]
  ring

/-- Replacing one item's offset changes the pointwise aggregate sum by the
difference of that item's contributions. -/
lemma sum_pointVal_update (items : List Item) (sched : List ℕ) (it : Item) (v : ℕ)
    (t : ℕ) (hnd : (items.map Item.idx).Nodup) (hit : it ∈ items)
    (hlen : it.idx < sched.length) :
    (items.map (fun j => pointVal j (((sched.set it.idx v).getD j.idx 0 : ℕ) : ℤ) t)).sum =
      (items.map (fun j => pointVal j ((sched.getD j.idx 0 : ℕ) : ℤ) t)).sum
        - pointVal it ((sched.getD it.idx 0 : ℕ) : ℤ) t + pointVal it (v : ℤ) t := by
  obtain ⟨l1, l2, rfl⟩ := List.append_of_mem hit
  have hnd2 : (l1.map Item.idx ++ (it.idx :: l2.map Item.idx)).Nodup := by
    simpa using hnd
  have hnd' := List.nodup_append.mp hnd2
  have hne1 : ∀ x ∈ l1, x.idx ≠ it.idx := by
    intro x hx he
    exact hnd'.2.2 (List.mem_map_of_mem Item.idx hx) (he ▸ List.mem_cons_self ..)
  have hne2 : ∀ x ∈ l2, x.idx ≠ it.idx := by
    intro x hx he
    have := List.nodup_cons.mp hnd'.2.1
    exact this.1 (he ▸ List.mem_map_of_mem Item.idx hx)
  simp only [List.map_append, List.map_cons, List.sum_append, List.sum_cons]
  have e1 : (l1.map (fun j => pointVal j (((sched.set it.idx v).getD j.idx 0 : ℕ) : ℤ) t)).sum
      = (l1.map (fun j => pointVal j ((sched.getD j.idx 0 : ℕ) : ℤ) t)).sum := by
    congr 1
    apply List.map_congr_left
    intro j hj
    rw [getD_set_ne _ _ _ (fun he => hne1 j hj he.symm)]
  have e2 : (l2.map (fun j => pointVal j (((sched.set it.idx v).getD j.idx 0 : ℕ) : ℤ) t)).sum
      = (l2.map (fun j => pointVal j ((sched.getD j.idx 0 : ℕ) : ℤ) t)).sum := by
    congr 1
    apply List.map_congr_left
    intro j hj
    rw [getD_set_ne _ _ _ (fun he => hne2 j hj he.symm)]
  rw [e1, e2, getD_set_self _ _ _ _ hlen]
  ring

/-- Invariant of the improvement-phase offset scan (lines 236-248): the
accumulator either is untouched or holds a strictly improving offset with its
contribution and peak; the running peak never increases. -/
lemma passScan_inv (base : List ℚ) (mi : ℕ) (di : ℚ) (M : ℕ) (cf : ℕ)
    (cp₀ : ℚ) (bc₀ : List ℚ) (imp₀ : Bool) (hM : 1 ≤ M) (hbase : base.length = M) :
    ∀ n, ∃ cp bf bc imp,
      (List.range n).foldl (passScanStep base mi di M cf) (some (cp₀, cf, bc₀, imp₀)) =
        some (cp, bf, bc, imp) ∧ cp ≤ cp₀ ∧
      ((cp = cp₀ ∧ bf = cf ∧ bc = bc₀ ∧ imp = imp₀) ∨
       (imp = true ∧ bf ≠ cf ∧ 1 ≤ bf ∧ bf ≤ n ∧
        bc = compute_inventory_profile mi di (bf : ℤ) M ∧
        listMax (addL base bc) = some cp ∧ cp < cp₀)) := by
  intro n
  induction n with
  | zero => exact ⟨cp₀, cf, bc₀, imp₀, rfl, le_refl _, Or.inl ⟨rfl, rfl, rfl, rfl⟩⟩
  | succ n ih =>
    obtain ⟨cp, bf, bc, imp, hA, hle, hinv⟩ := ih
    rw [List.range_succ, List.foldl_append, List.foldl_cons, List.foldl_nil, hA]
    by_cases hcf : n + 1 = cf
    · refine ⟨cp, bf, bc, imp, ?_, hle, ?_⟩
      · simp only [passScanStep, if_pos hcf]
      · rcases hinv with h | ⟨h1, h2, h3, h4, h5, h6, h7⟩
        · exact Or.inl h
        · exact Or.inr ⟨h1, h2, h3, by omega, h5, h6, h7⟩
    · obtain ⟨q, hq⟩ := candPeak_isSome base mi di M (n + 1) hM hbase
      have hq' : listMax (addL base (compute_inventory_profile mi di ((n + 1 : ℕ) : ℤ) M))
          = some q := hq
      by_cases hcmp : q < cp
      · refine ⟨q, n + 1, _, true, ?_, by linarith, Or.inr ⟨rfl, hcf, by omega,
          le_refl _, rfl, hq, by linarith⟩⟩
        simp only [passScanStep, if_neg hcf, hq', if_pos hcmp]
      · refine ⟨cp, bf, bc, imp, ?_, hle, ?_⟩
        · simp only [passScanStep, if_neg hcf, hq', if_neg hcmp]
        · rcases hinv with h | ⟨h1, h2, h3, h4, h5, h6, h7⟩
          · exact Or.inl h
          · exact Or.inr ⟨h1, h2, h3, by omega, h5, h6, h7⟩

/-- When no alternative offset strictly improves on the running peak, the
improvement-phase scan leaves its accumulator untouched. -/
lemma passScan_no_improve (base : List ℚ) (mi : ℕ) (di : ℚ) (M : ℕ) (cf : ℕ)
    (cp₀ : ℚ) (bc₀ : List ℚ) (imp₀ : Bool) (hM : 1 ≤ M) (hbase : base.length = M)
    (h : ∀ f, 1 ≤ f → f ≤ mi → f ≠ cf → ∀ q,
      listMax (addL base (compute_inventory_profile mi di (f : ℤ) M)) = some q →
      cp₀ ≤ q) :
    (List.range mi).foldl (passScanStep base mi di M cf) (some (cp₀, cf, bc₀, imp₀)) =
      some (cp₀, cf, bc₀, imp₀) := by
  obtain ⟨cp, bf, bc, imp, hA, hle, hinv⟩ :=
    passScan_inv base mi di M cf cp₀ bc₀ imp₀ hM hbase mi
  rcases hinv with ⟨h1, h2, h3, h4⟩ | ⟨h1, h2, h3, h4, h5, h6, h7⟩
  · rw [hA, h1, h2, h3, h4]
  · exfalso
    have := h bf h3 h4 h2 cp (h5 ▸ h6)
    linarith

/-- One improvement-phase item visit (lines 229-254) succeeds, preserves the
invariant, never increases the running peak, tracks the peak of the current
aggregate, and strictly decreases the peak whenever it changes anything. -/
lemma passItem_spec (M N : ℕ) (items : List Item) (st : StagState) (it : Item)
    (cp : ℚ) (imp : Bool)
    (hgs : GoodState M N items st) (hM : 1 ≤ M) (hit : it ∈ items)
    (hnd : (items.map Item.idx).Nodup) (hidx : ∀ x ∈ items, x.idx < N)
    (hcp : listMax st.total = some cp) :
    ∃ st' cp' imp', passItem M (st, cp, imp) it = some (st', cp', imp') ∧
      GoodState M N items st' ∧ listMax st'.total = some cp' ∧ cp' ≤ cp ∧
      ((st' = st ∧ cp' = cp ∧ imp' = imp) ∨ (imp' = true ∧ cp' < cp)) := by
  obtain ⟨hsl, hcl, htl, hlb, hub, hce, hte⟩ := hgs
  have hitN : it.idx < N := hidx it hit
  have hbc0 : st.contribs.getD it.idx [] =
      compute_inventory_profile it.mult it.dem
        ((st.schedules.getD it.idx 0 : ℕ) : ℤ) M := hce it hit
  have hbase : (subL st.total (st.contribs.getD it.idx [])).length = M := by
    rw [length_subL, htl, hbc0, length_profile, min_self]
  obtain ⟨cp', bf, bc, imp', hA, hle, hinv⟩ :=
    passScan_inv (subL st.total (st.contribs.getD it.idx []))
      it.mult it.dem M (st.schedules.getD it.idx 0) cp
      (st.contribs.getD it.idx []) imp hM hbase it.mult
  have hinj : ∀ x ∈ items, ∀ y ∈ items, x.idx = y.idx → x = y := by
    intro x hx y hy he
    exact List.inj_on_of_nodup_map hnd hx hy he
  by_cases hcf : bf = st.schedules.getD it.idx 0
  · have hkeep : cp' = cp ∧ bc = st.contribs.getD it.idx [] ∧ imp' = imp := by
      rcases hinv with ⟨h1, _, h3, h4⟩ | ⟨_, h2, _, _, _, _, _⟩
      · exact ⟨h1, h3, h4⟩
      · exact absurd hcf h2
    refine ⟨st, cp, imp, ?_, ⟨hsl, hcl, htl, hlb, hub, hce, hte⟩, hcp, le_refl _,
      Or.inl ⟨rfl, rfl, rfl⟩⟩
    simp only [passItem, hA]
    rw [if_pos hcf, hkeep.1, hkeep.2.2]
  · have hbig : imp' = true ∧ bf ≠ st.schedules.getD it.idx 0 ∧ 1 ≤ bf ∧
        bf ≤ it.mult ∧ bc = compute_inventory_profile it.mult it.dem (bf : ℤ) M ∧
        listMax (addL (subL st.total (st.contribs.getD it.idx [])) bc) = some cp' ∧
        cp' < cp := by
      rcases hinv with ⟨_, h2, _, _⟩ | h
      · exact absurd h2 hcf
      · exact h
    obtain ⟨him, _, hbf1, hbf2, hbc, hpk, hdec⟩ := hbig
    have hbcl : bc.length = M := by rw [hbc]; exact length_profile ..
    have hxne : ∀ x ∈ items, x ≠ it → x.idx ≠ it.idx := by
      intro x hx hne he
      exact hne (hinj x hx it hit he)
    refine ⟨⟨st.schedules.set it.idx bf, st.contribs.set it.idx bc,
      addL (subL st.total (st.contribs.getD it.idx [])) bc⟩, cp', imp', ?_, ?_,
      hpk, hle, Or.inr ⟨him, hdec⟩⟩
    · simp only [passItem, hA]
      rw [if_neg hcf]
    have hsetS : (st.schedules.set it.idx bf).getD it.idx 0 = bf :=
      getD_set_self _ _ _ _ (by omega)
    have hsetC : (st.contribs.set it.idx bc).getD it.idx [] = bc :=
      getD_set_self _ _ _ _ (by omega)
    refine ⟨by simpa using hsl, by simpa using hcl,
      by rw [show (⟨st.schedules.set it.idx bf, st.contribs.set it.idx bc,
          addL (subL st.total (st.contribs.getD it.idx [])) bc⟩ : StagState).total =
          addL (subL st.total (st.contribs.getD it.idx [])) bc from rfl,
        length_addL, hbase, hbcl, min_self], ?_, ?_, ?_, ?_⟩
    · intro x hx
      by_cases hxit : x = it
      · subst hxit
        show 1 ≤ (st.schedules.set x.idx bf).getD x.idx 0
        rw [hsetS]
        exact hbf1
      · show 1 ≤ (st.schedules.set it.idx bf).getD x.idx 0
        rw [getD_set_ne _ _ _ (fun he => hxne x hx hxit he.symm)]
        exact hlb x hx
    · intro x hx
      by_cases hxit : x = it
      · subst hxit
        show (st.schedules.set x.idx bf).getD x.idx 0 ≤ x.mult
        rw [hsetS]
        exact hbf2
      · show (st.schedules.set it.idx bf).getD x.idx 0 ≤ x.mult
        rw [getD_set_ne _ _ _ (fun he => hxne x hx hxit he.symm)]
        exact hub x hx
    · intro x hx
      by_cases hxit : x = it
      · subst hxit
        show (st.contribs.set x.idx bc).getD x.idx [] =
          compute_inventory_profile x.mult x.dem
            (((st.schedules.set x.idx bf).getD x.idx 0 : ℕ) : ℤ) M
        rw [hsetC, hsetS, hbc]
      · show (st.contribs.set it.idx bc).getD x.idx [] =
          compute_inventory_profile x.mult x.dem
            (((st.schedules.set it.idx bf).getD x.idx 0 : ℕ) : ℤ) M
        rw [getD_set_ne _ _ _ (fun he => hxne x hx hxit he.symm),
          getD_set_ne _ _ _ (fun he => hxne x hx hxit he.symm)]
        exact hce x hx
    · show addL (subL st.total (st.contribs.getD it.idx [])) bc =
        sumProfiles M items (st.schedules.set it.idx bf)
      apply List.ext_getElem
        (by rw [length_addL, hbase, hbcl, min_self, length_sumProfiles])
      intro t h1 h2
      have htM : t < M := by
        rw [length_addL, hbase, hbcl, min_self] at h1
        exact h1
      rw [getElem_addL _ _ t (by omega) (by omega) h1,
        getElem_subL _ _ t (by omega) (by rw [hbc0, length_profile]; omega) (by omega),
        getElem_sumProfiles _ _ _ _ htM h2,
        sum_pointVal_update items st.schedules it bf t hnd hit (by omega)]
      have e1 : st.total[t] =
          (items.map (fun j => pointVal j ((st.schedules.getD j.idx 0 : ℕ) : ℤ) t)).sum :=
        (List.getElem_of_eq hte _).trans (getElem_sumProfiles M items st.schedules t htM
          (by rw [length_sumProfiles]; exact htM))
      have hct : t < (st.contribs.getD it.idx []).length := by
        rw [hbc0, length_profile]
        exact htM
      have e2 : (st.contribs.getD it.idx [])[t] =
          pointVal it ((st.schedules.getD it.idx 0 : ℕ) : ℤ) t := by
        rw [List.getElem_of_eq hbc0 _, getElem_profile _ _ _ _ t
          (by rw [length_profile]; exact htM)]
        rfl
      have e3 : bc[t] = pointVal it (bf : ℤ) t := by
        rw [List.getElem_of_eq hbc _, getElem_profile _ _ _ _ t
          (by rw [length_profile]; exact htM)]
        rfl
      rw [e1, e2, e3]

/-- Folding `passItem` over any selection of valid items preserves the
invariant and the monotone/strict peak behaviour. -/
lemma passFold_spec (M N : ℕ) (items : List Item)
    (hnd : (items.map Item.idx).Nodup) (hidx : ∀ x ∈ items, x.idx < N)
    (hM : 1 ≤ M) (l : List Item) :
    ∀ (st : StagState) (cp : ℚ) (imp : Bool), (∀ x ∈ l, x ∈ items) →
    GoodState M N items st → listMax st.total = some cp →
    ∃ st' cp' imp', l.foldlM (passItem M) (st, cp, imp) = some (st', cp', imp') ∧
      GoodState M N items st' ∧ listMax st'.total = some cp' ∧ cp' ≤ cp ∧
      ((st' = st ∧ cp' = cp ∧ imp' = imp) ∨ (imp' = true ∧ cp' < cp)) := by
  induction l with
  | nil =>
    intro st cp imp _ hgs hcp
    exact ⟨st, cp, imp, rfl, hgs, hcp, le_refl _, Or.inl ⟨rfl, rfl, rfl⟩⟩
  | cons it l ih =>
    intro st cp imp hl hgs hcp
    obtain ⟨st1, cp1, imp1, hstep, hgs1, hcp1, hle1, hd1⟩ :=
      passItem_spec M N items st it cp imp hgs hM (hl it (by simp)) hnd hidx hcp
    obtain ⟨st', cp', imp', hfold, hgs', hcp', hle', hd'⟩ :=
      ih st1 cp1 imp1 (fun x hx => hl x (List.mem_cons_of_mem _ hx)) hgs1 hcp1
    refine ⟨st', cp', imp', ?_, hgs', hcp', le_trans hle' hle1, ?_⟩
    · rw [List.foldlM_cons, hstep]
      simpa using hfold
    · rcases hd1 with ⟨he1, he2, he3⟩ | ⟨he1, he2⟩
      · rw [he1, he2, he3] at hd'
        exact hd'
      · rcases hd' with ⟨hf1, hf2, hf3⟩ | ⟨hf1, hf2⟩
        · exact Or.inr ⟨hf3 ▸ he1, by rw [hf2]; exact he2⟩
        · exact Or.inr ⟨hf1, lt_trans hf2 he2⟩

/-- One full improvement pass (lines 226-254): succeeds on a good state,
preserves the invariant, never increases the peak; a pass that reports no
improvement leaves the state unchanged, and a pass that reports improvement
strictly decreased the peak. -/
lemma passOnce_spec (M N : ℕ) (items : List Item) (st : StagState)
    (hnd : (items.map Item.idx).Nodup) (hidx : ∀ x ∈ items, x.idx < N)
    (hM : 1 ≤ M) (hgs : GoodState M N items st) :
    ∃ st' imp cp cp', passOnce M items st = some (st', imp) ∧
      GoodState M N items st' ∧ listMax st.total = some cp ∧
      listMax st'.total = some cp' ∧ cp' ≤ cp ∧
      (imp = false → st' = st ∧ cp' = cp) ∧ (imp = true → cp' < cp) := by
  obtain ⟨cp, hcp⟩ := listMax_isSome st.total (by
    intro h
    have := congrArg List.length h
    rw [hgs.2.2.1] at this
    simp at this
    omega)
  obtain ⟨st', cp', imp', hfold, hgs', hcp', hle', hd'⟩ :=
    passFold_spec M N items hnd hidx hM items st cp false (fun x hx => hx) hgs hcp
  refine ⟨st', imp', cp, cp', ?_, hgs', hcp, hcp', hle', ?_, ?_⟩
  · simp only [passOnce, hcp, hfold]
  · intro himp
    rcases hd' with ⟨h1, h2, _⟩ | ⟨h1, _⟩
    · exact ⟨h1, h2⟩
    · rw [himp] at h1; exact absurd h1 (by simp)
  · intro himp
    rcases hd' with ⟨_, _, h3⟩ | ⟨_, h2⟩
    · rw [himp] at h3; exact absurd h3.symm (by simp)
    · exact h2

lemma sumProfiles_mem_allTotals (M : ℕ) (items : List Item) (sched : List ℕ)
    (h : ∀ it ∈ items, 1 ≤ sched.getD it.idx 0 ∧ sched.getD it.idx 0 ≤ it.mult) :
    sumProfiles M items sched ∈ allTotals M items := by
  induction items with
  | nil => simp [sumProfiles, allTotals]
  | cons it rest ih =>
    obtain ⟨h1, h2⟩ := h it (by simp)
    rw [allTotals]
    apply List.mem_flatMap.mpr
    refine ⟨sched.getD it.idx 0 - 1, List.mem_range.mpr (by omega), ?_⟩
    apply List.mem_map.mpr
    refine ⟨sumProfiles M rest sched,
      ih (fun x hx => h x (List.mem_cons_of_mem _ hx)), ?_⟩
    rw [sumProfiles_cons]
    congr 2
    omega

lemma peak_mem_allPeaks (M N : ℕ) (items : List Item) (st : StagState) (cp : ℚ)
    (hgs : GoodState M N items st) (hcp : listMax st.total = some cp) :
    cp ∈ allPeaks M items := by
  apply List.mem_toFinset.mpr
  apply List.mem_filterMap.mpr
  refine ⟨st.total, ?_, hcp⟩
  rw [hgs.2.2.2.2.2.2]
  exact sumProfiles_mem_allTotals M items st.schedules
    (fun x hx => ⟨hgs.2.2.2.1 x hx, hgs.2.2.2.2.1 x hx⟩)

lemma peaksBelow_strict (M : ℕ) (items : List Item) (cp cp' : ℚ)
    (h1 : cp' ∈ allPeaks M items) (h2 : cp' < cp) :
    peaksBelow M items cp' < peaksBelow M items cp := by
  apply Finset.card_lt_card
  have hsub : (allPeaks M items).filter (fun v => v < cp') ⊆
      (allPeaks M items).filter (fun v => v < cp) := by
    intro v hv
    rw [Finset.mem_filter] at hv ⊢
    exact ⟨hv.1, lt_trans hv.2 h2⟩
  apply (Finset.ssubset_iff_of_subset hsub).mpr
  refine ⟨cp', Finset.mem_filter.mpr ⟨h1, h2⟩, ?_⟩
  rw [Finset.mem_filter]
  push_neg
  intro _
  exact le_refl cp'

lemma length_allTotals (M : ℕ) (items : List Item) :
    (allTotals M items).length = (items.map Item.mult).prod := by
  induction items with
  | nil => simp [allTotals]
  | cons it rest ih =>
    rw [allTotals, List.length_flatMap]
    simp only [Function.comp_def]
    have he : ∀ f0 ∈ List.range it.mult,
        ((allTotals M rest).map
          (fun tl => addL (compute_inventory_profile it.mult it.dem
            ((f0 + 1 : ℕ) : ℤ) M) tl)).length = (allTotals M rest).length := by
      intro f0 _
      exact List.length_map ..
    rw [List.map_congr_left he, List.map_const', List.sum_replicate, smul_eq_mul,
      List.length_range, List.map_cons, List.prod_cons, ih]

lemma peaksBelow_le (M : ℕ) (items : List Item) (cp : ℚ) :
    peaksBelow M items cp ≤ (items.map Item.mult).prod := by
  have h1 : peaksBelow M items cp ≤ (allPeaks M items).card := Finset.card_filter_le ..
  have h2 : (allPeaks M items).card ≤ ((allTotals M items).filterMap listMax).length :=
    List.toFinset_card_le ..
  have h3 : ((allTotals M items).filterMap listMax).length ≤ (allTotals M items).length :=
    List.length_filterMap_le ..
  have h4 := length_allTotals M items
  omega

/-- The improvement loop (lines 224-254) reaches its fixed point within the
fuel bound: each improving pass strictly decreases the peak, which ranges in
the finite set of configuration peaks. -/
lemma improveLoop_spec (M N : ℕ) (items : List Item)
    (hnd : (items.map Item.idx).Nodup) (hidx : ∀ x ∈ items, x.idx < N)
    (hM : 1 ≤ M) (fuel : ℕ) :
    ∀ (st : StagState) (cp : ℚ), GoodState M N items st →
    listMax st.total = some cp → peaksBelow M items cp < fuel →
    ∃ st' cp', improveLoop M items fuel st = some st' ∧ GoodState M N items st' ∧
      listMax st'.total = some cp' ∧ cp' ≤ cp := by
  induction fuel with
  | zero =>
    intro st cp _ _ hlt
    omega
  | succ fuel ih =>
    intro st cp hgs hcp hfuel
    obtain ⟨st1, imp, cpA, cp1, hpass, hgs1, hcpA, hcp1, hle1, hfalse, htrue⟩ :=
      passOnce_spec M N items st hnd hidx hM hgs
    have hcpe : cpA = cp := Option.some.inj (hcpA.symm.trans hcp)
    rw [hcpe] at hle1 hfalse htrue
    rcases (Bool.eq_false_or_eq_true imp).symm with himp | himp
    · obtain ⟨he1, he2⟩ := hfalse himp
      refine ⟨st1, cp1, ?_, hgs1, hcp1, hle1⟩
      simp only [improveLoop, hpass, himp]
      simp
    · have hdec : cp1 < cp := htrue himp
      have hmem : cp1 ∈ allPeaks M items := peak_mem_allPeaks M N items st1 cp1 hgs1 hcp1
      have hm1 : peaksBelow M items cp1 < fuel := by
        have := peaksBelow_strict M items cp cp1 hmem hdec
        omega
      obtain ⟨st', cp', hloop, hgs', hcp', hle'⟩ := ih st1 cp1 hgs1 hcp1 hm1
      refine ⟨st', cp', ?_, hgs', hcp', le_trans hle' (le_of_lt hdec)⟩
      simp only [improveLoop, hpass, himp]
      simpa using hloop

lemma sumProfiles_perm (M : ℕ) (l1 l2 : List Item) (sched : List ℕ)
    (h : l1.Perm l2) : sumProfiles M l1 sched = sumProfiles M l2 sched := by
  apply List.ext_getElem (by simp [length_sumProfiles])
  intro t h1 h2
  have htM : t < M := by simpa [length_sumProfiles] using h1
  rw [getElem_sumProfiles _ _ _ _ htM h1, getElem_sumProfiles _ _ _ _ htM h2]
  exact (h.map _).sum_eq

lemma mkItems_map_mult (m : List ℕ) (d : List ℚ) :
    (mkItems m d).map Item.mult = m := by
  apply List.ext_getElem (by simp [mkItems])
  intro i h1 h2
  simp only [mkItems, List.map_map, List.getElem_map, List.getElem_range]
  exact List.getD_eq_getElem m 0 h2

lemma getD_profile (mi : ℕ) (di : ℚ) (f : ℤ) (M t : ℕ) (h : t < M) :
    (compute_inventory_profile mi di f M).getD t 0 = pointVal ⟨0, mi, di⟩ f t := by
  rw [List.getD_eq_getElem _ 0 (by rw [length_profile]; exact h)]
  exact getElem_profile mi di f M t (by rw [length_profile]; exact h)

lemma goodState_contribSum (M N : ℕ) (items : List Item) (st : StagState)
    (h : GoodState M N items st) : contribSum M items st := by
  intro t ht
  obtain ⟨_, _, htl, _, _, hce, hte⟩ := h
  rw [List.getD_eq_getElem st.total 0 (show t < st.total.length by omega),
    List.getElem_of_eq hte _, getElem_sumProfiles _ _ _ _ ht
      (by rw [length_sumProfiles]; exact ht)]
  congr 1
  apply List.map_congr_left
  intro it hit
  rw [hce it hit, getD_profile _ _ _ _ _ ht]
  rfl

/-- The full pipeline on valid input: the greedy phase succeeds, the
improvement loop converges within the fuel, both states satisfy the
invariant, and the peak never increases across the improvement phase. -/
lemma staggering_pipeline (m : List ℕ) (d : List ℚ) (T_max : ℕ)
    (hm : ∀ x ∈ m, 1 ≤ x) (hN : m ≠ []) (hT : 1 ≤ T_max) :
    ∃ st0 st1,
      greedyPhase m d T_max = some (horizonM m T_max, sortItems (mkItems m d), st0) ∧
      improveLoop (horizonM m T_max) (sortItems (mkItems m d)) (staggeringFuel m) st0
        = some st1 ∧
      staggeringFull m d T_max = some (st1, horizonM m T_max, sortItems (mkItems m d)) ∧
      GoodState (horizonM m T_max) m.length (sortItems (mkItems m d)) st0 ∧
      GoodState (horizonM m T_max) m.length (sortItems (mkItems m d)) st1 ∧
      (∀ cp0 cp1, listMax st0.total = some cp0 → listMax st1.total = some cp1 →
        cp1 ≤ cp0) := by
  have hM : 1 ≤ horizonM m T_max := horizon_pos m T_max hm hT
  obtain ⟨st0, hgreedy, hgs0, _⟩ := greedyPhase_spec m d T_max hm hN hT
  have hnd := sortItems_nodup_idx m d
  have hidx : ∀ x ∈ sortItems (mkItems m d), x.idx < m.length :=
    fun x hx => (mem_mkItems m d x ((sortItems_perm (mkItems m d)).subset hx)).1
  obtain ⟨cp0, hcp0⟩ := listMax_isSome st0.total (by
    intro h
    have := congrArg List.length h
    rw [hgs0.2.2.1] at this
    simp at this
    omega)
  have hfuel : peaksBelow (horizonM m T_max) (sortItems (mkItems m d)) cp0 <
      staggeringFuel m := by
    have h1 := peaksBelow_le (horizonM m T_max) (sortItems (mkItems m d)) cp0
    have h2 : ((sortItems (mkItems m d)).map Item.mult).prod = m.prod := by
      rw [((sortItems_perm (mkItems m d)).map Item.mult).prod_eq, mkItems_map_mult]
    have h3 : m.prod = m.foldl (· * ·) 1 := List.prod_eq_foldl
    rw [h2, h3] at h1
    unfold staggeringFuel
    omega
  obtain ⟨st1, cp1, hloop, hgs1, hcp1, hle⟩ :=
    improveLoop_spec (horizonM m T_max) m.length (sortItems (mkItems m d))
      hnd hidx hM (staggeringFuel m) st0 cp0 hgs0 hcp0 hfuel
  refine ⟨st0, st1, hgreedy, hloop, ?_, hgs0, hgs1, ?_⟩
  · unfold staggeringFull
    simp only [hgreedy, hloop]
  · intro cp0' cp1' hcp0' hcp1'
    have e0 : cp0' = cp0 := Option.some.inj (hcp0'.symm.trans hcp0)
    have e1 : cp1' = cp1 := Option.some.inj (hcp1'.symm.trans hcp1)
    rw [e0, e1]
    exact hle

/-- C2: the peak of the aggregate after the improvement phase is at most the
peak after the greedy construction phase. -/
theorem claim_C2_peak_monotone (m : List ℕ) (d : List ℚ) (T_max : ℕ)
    (hlen : d.length = m.length) (hm : ∀ x ∈ m, 1 ≤ x) (hd : ∀ x ∈ d, 0 ≤ x)
    (hN : m ≠ []) (hT : 1 ≤ T_max) :
    ∀ M items st0 st1 cp0 cp1,
      greedyPhase m d T_max = some (M, items, st0) →
      improveLoop M items (staggeringFuel m) st0 = some st1 →
      listMax st0.total = some cp0 → listMax st1.total = some cp1 →
      cp1 ≤ cp0 := by
  obtain ⟨sA, sB, hG, hL, _, _, _, hmono⟩ := staggering_pipeline m d T_max hm hN hT
  intro M items st0 st1 cp0 cp1 hG' hL' hcp0 hcp1
  have he := Option.some.inj (hG.symm.trans hG')
  simp only [Prod.mk.injEq] at he
  obtain ⟨he1, he2, he3⟩ := he
  subst he1
  subst he2
  subst he3
  have hst1 : sB = st1 := Option.some.inj (hL.symm.trans hL')
  subst hst1
  exact hmono cp0 cp1 hcp0 hcp1

/-- C3: on valid input the improvement `while` loop terminates: the loop with
the structural fuel `∏ mᵢ + 1` reaches its fixed point (an accepted commit
strictly decreases the peak, and there are finitely many configurations), and
the whole algorithm returns a result. -/
theorem claim_C3_termination (m : List ℕ) (d : List ℚ) (T_max : ℕ)
    (hlen : d.length = m.length) (hm : ∀ x ∈ m, 1 ≤ x) (hd : ∀ x ∈ d, 0 ≤ x)
    (hN : m ≠ []) (hT : 1 ≤ T_max) :
    (∀ M items st0, greedyPhase m d T_max = some (M, items, st0) →
      ∃ st1, improveLoop M items (staggeringFuel m) st0 = some st1) ∧
    ∃ r, staggering_algorithm m d T_max = some r := by
  obtain ⟨sA, sB, hG, hL, hFull, _, hgs1, _⟩ := staggering_pipeline m d T_max hm hN hT
  constructor
  · intro M items st0 hG'
    have he := Option.some.inj (hG.symm.trans hG')
    simp only [Prod.mk.injEq] at he
    obtain ⟨he1, he2, he3⟩ := he
    subst he1
    subst he2
    subst he3
    exact ⟨sB, hL⟩
  · obtain ⟨cp1, hcp1⟩ := listMax_isSome sB.total (by
      intro h
      have := congrArg List.length h
      rw [hgs1.2.2.1] at this
      simp at this
      have := horizon_pos m T_max hm hT
      omega)
    refine ⟨(sB.schedules, ceilRound1 cp1), ?_⟩
    unfold staggering_algorithm
    simp only [hFull, hcp1]

/-- C6: the integer peak returned by the algorithm equals
`ceil(round(max(aggregate), 1))` where the aggregate is the elementwise sum
of the items' profiles at the returned offsets. -/
theorem claim_C6_final_peak (m : List ℕ) (d : List ℚ) (T_max : ℕ)
    (hlen : d.length = m.length) (hm : ∀ x ∈ m, 1 ≤ x) (hd : ∀ x ∈ d, 0 ≤ x)
    (hN : m ≠ []) (hT : 1 ≤ T_max) :
    ∀ s H, staggering_algorithm m d T_max = some (s, H) →
      ∃ cp, listMax (sumProfiles (horizonM m T_max) (mkItems m d) s) = some cp ∧
        H = ceilRound1 cp := by
  obtain ⟨sA, sB, hG, hL, hFull, _, hgs1, _⟩ := staggering_pipeline m d T_max hm hN hT
  intro s H h
  obtain ⟨cp1, hcp1⟩ := listMax_isSome sB.total (by
    intro hnil
    have := congrArg List.length hnil
    rw [hgs1.2.2.1] at this
    simp at this
    have := horizon_pos m T_max hm hT
    omega)
  have halg : staggering_algorithm m d T_max = some (sB.schedules, ceilRound1 cp1) := by
    unfold staggering_algorithm
    simp only [hFull, hcp1]
  have he := Option.some.inj (halg.symm.trans h)
  simp only [Prod.mk.injEq] at he
  obtain ⟨hs, hH⟩ := he
  refine ⟨cp1, ?_, hH.symm⟩
  have htot : sB.total = sumProfiles (horizonM m T_max) (mkItems m d) s := by
    rw [hgs1.2.2.2.2.2.2, sumProfiles_perm _ _ _ _ (sortItems_perm (mkItems m d)), hs]
  rw [← htot]
  exact hcp1

/-- C7 amended: `staggering_algorithm` performs no input validation at all:
on any positive multipliers it runs to completion for every demand list of
matching length, including negative demands (no `InvalidDemand` is raised),
and a zero multiplier leads to a downstream empty-horizon failure rather than
a fail-fast `InvalidCycle`. -/
theorem claim_C7_amended (m : List ℕ) (d : List ℚ) (T_max : ℕ)
    (hlen : d.length = m.length) (hm : ∀ x ∈ m, 1 ≤ x) (hN : m ≠ [])
    (hT : 1 ≤ T_max) :
    (∃ r, staggering_algorithm m d T_max = some r) ∧
    staggering_algorithm [0] [1] 10000 = none := by
  constructor
  · obtain ⟨sA, sB, hG, hL, hFull, _, hgs1, _⟩ := staggering_pipeline m d T_max hm hN hT
    obtain ⟨cp1, hcp1⟩ := listMax_isSome sB.total (by
      intro h
      have := congrArg List.length h
      rw [hgs1.2.2.1] at this
      simp at this
      have := horizon_pos m T_max hm hT
      omega)
    refine ⟨(sB.schedules, ceilRound1 cp1), ?_⟩
    unfold staggering_algorithm
    simp only [hFull, hcp1]
  · norm_num [staggering_algorithm, staggeringFull, greedyPhase, sortItems,
      mkItems, horizonM, lcm_of_list, lcm, placeFirst, greedyStep,
      scanOffsets, scanStep, compute_inventory_profile, addL, subL,
      listMax, improveLoop, passOnce, passItem, passScanStep,
      staggeringFuel, itemLE, lot, List.insertionSort, List.orderedInsert,
      List.range_succ, List.replicate_succ, List.set]

/-- C8: at every stage of the algorithm the aggregate equals the elementwise
sum of the placed items' stored contributions: after the first placement,
after every greedy commit, and after every improvement-phase item visit. -/
theorem claim_C8_aggregate_invariant (m : List ℕ) (d : List ℚ) (T_max : ℕ)
    (hlen : d.length = m.length) (hm : ∀ x ∈ m, 1 ≤ x) (hd : ∀ x ∈ d, 0 ≤ x)
    (hN : m ≠ []) (hT : 1 ≤ T_max) :
    (∀ it0 rest, sortItems (mkItems m d) = it0 :: rest →
      contribSum (horizonM m T_max) [it0]
        (placeFirst (horizonM m T_max) m.length it0)) ∧
    (∀ placed st it st', GoodState (horizonM m T_max) m.length placed st →
      it.idx < m.length → 1 ≤ it.mult → it.idx ∉ placed.map Item.idx →
      greedyStep (horizonM m T_max) st it = some st' →
      contribSum (horizonM m T_max) (placed ++ [it]) st') ∧
    (∀ st cp imp it st' cp' imp',
      GoodState (horizonM m T_max) m.length (sortItems (mkItems m d)) st →
      it ∈ sortItems (mkItems m d) → listMax st.total = some cp →
      passItem (horizonM m T_max) (st, cp, imp) it = some (st', cp', imp') →
      contribSum (horizonM m T_max) (sortItems (mkItems m d)) st') := by
  have hM : 1 ≤ horizonM m T_max := horizon_pos m T_max hm hT
  refine ⟨?_, ?_, ?_⟩
  · intro it0 rest hsort
    have hmem : it0 ∈ mkItems m d :=
      (sortItems_perm (mkItems m d)).subset (hsort ▸ List.mem_cons_self ..)
    exact goodState_contribSum _ _ _ _
      (goodState_placeFirst _ _ it0 (mem_mkItems m d it0 hmem).1
        (mem_mkItems_mult m d it0 hmem hm))
  · intro placed st it st' hgs hidx hmi hnotin hstep
    obtain ⟨bf, bc, st'', hstep', _, _, _, _, hgs''⟩ :=
      goodState_greedyStep _ _ placed st it hgs hM hidx hmi hnotin
    have he : st'' = st' := Option.some.inj (hstep'.symm.trans hstep)
    subst he
    exact goodState_contribSum _ _ _ _ hgs''
  · intro st cp imp it st' cp' imp' hgs hit hcp hpass
    obtain ⟨st'', cp'', imp'', hpass', hgs'', _, _, _⟩ :=
      passItem_spec (horizonM m T_max) m.length (sortItems (mkItems m d)) st it cp imp
        hgs hM hit (sortItems_nodup_idx m d)
        (fun x hx => (mem_mkItems m d x ((sortItems_perm (mkItems m d)).subset hx)).1)
        hcp
    have he := Option.some.inj (hpass'.symm.trans hpass)
    simp only [Prod.mk.injEq] at he
    obtain ⟨he1, _, _⟩ := he
    subst he1
    exact goodState_contribSum _ _ _ _ hgs''

/-- C2 witness: the theorem instantiated at `m = [2,2]`, `d = [1,1]` and the
concrete post-greedy and post-improvement states, giving peak `3 ≤ 3`. -/
theorem claim_C2_peak_monotone_witness : (3 : ℚ) ≤ 3 :=
  claim_C2_peak_monotone [2, 2] [1, 1] 10000 (by norm_num) (by norm_num)
    (by norm_num) (by simp) (by norm_num) 2 [⟨0, 2, 1⟩, ⟨1, 2, 1⟩]
    ⟨[1, 2], [[2, 1], [1, 2]], [3, 3]⟩ ⟨[1, 2], [[2, 1], [1, 2]], [3, 3]⟩ 3 3
    (by norm_num [greedyPhase, sortItems, mkItems, horizonM, lcm_of_list, lcm,
      placeFirst, greedyStep, scanOffsets, scanStep, compute_inventory_profile,
      addL, listMax, itemLE, lot, List.insertionSort, List.orderedInsert,
      max_def, List.range_succ, List.replicate_succ, List.set])
    (by norm_num [improveLoop, passOnce, passItem, passScanStep, staggeringFuel,
      compute_inventory_profile, addL, subL, listMax, max_def, List.range_succ,
      List.replicate_succ, List.set])
    (by norm_num [listMax, max_def])
    (by norm_num [listMax, max_def])

/-- C3 witness: the theorem instantiated at `m = [2,2]`, `d = [1,1]`. -/
theorem claim_C3_termination_witness :
    (∀ M items st0, greedyPhase [2, 2] [1, 1] 10000 = some (M, items, st0) →
      ∃ st1, improveLoop M items (staggeringFuel [2, 2]) st0 = some st1) ∧
    ∃ r, staggering_algorithm [2, 2] [1, 1] 10000 = some r :=
  claim_C3_termination [2, 2] [1, 1] 10000 (by norm_num) (by norm_num)
    (by norm_num) (by simp) (by norm_num)

/-- C6 witness: the theorem instantiated at `m = [2,2]`, `d = [1,1]` and the
returned schedule `[1,2]` with peak `3`. -/
theorem claim_C6_final_peak_witness :
    ∃ cp, listMax (sumProfiles (horizonM [2, 2] 10000) (mkItems [2, 2] [1, 1]) [1, 2]) =
        some cp ∧ (3 : ℤ) = ceilRound1 cp :=
  claim_C6_final_peak [2, 2] [1, 1] 10000 (by norm_num) (by norm_num)
    (by norm_num) (by simp) (by norm_num) [1, 2] 3
    (by norm_num [staggering_algorithm, staggeringFull, greedyPhase, sortItems,
      mkItems, horizonM, lcm_of_list, lcm, placeFirst, greedyStep,
      scanOffsets, scanStep, compute_inventory_profile, addL, subL,
      listMax, improveLoop, passOnce, passItem, passScanStep,
      staggeringFuel, itemLE, lot, ceilRound1, round1, roundHalfEven,
      List.insertionSort, List.orderedInsert, max_def, List.range_succ,
      round_eq, Int.fract, List.replicate_succ, List.set])

/-- C7 amended witness: the theorem instantiated at `m = [2]`, `d = [-3]`
(negative demand accepted without error). -/
theorem claim_C7_amended_witness :
    (∃ r, staggering_algorithm [2] [-3] 10000 = some r) ∧
    staggering_algorithm [0] [1] 10000 = none :=
  claim_C7_amended [2] [-3] 10000 (by norm_num) (by norm_num) (by simp)
    (by norm_num)

/-- C8 witness: the theorem instantiated at `m = [2,2]`, `d = [1,1]`. -/
theorem claim_C8_aggregate_invariant_witness :
    (∀ it0 rest, sortItems (mkItems [2, 2] [1, 1]) = it0 :: rest →
      contribSum (horizonM [2, 2] 10000) [it0]
        (placeFirst (horizonM [2, 2] 10000) (List.length [2, 2]) it0)) ∧
    (∀ placed st it st',
      GoodState (horizonM [2, 2] 10000) (List.length [2, 2]) placed st →
      it.idx < List.length [2, 2] → 1 ≤ it.mult → it.idx ∉ placed.map Item.idx →
      greedyStep (horizonM [2, 2] 10000) st it = some st' →
      contribSum (horizonM [2, 2] 10000) (placed ++ [it]) st') ∧
    (∀ st cp imp it st' cp' imp',
      GoodState (horizonM [2, 2] 10000) (List.length [2, 2])
        (sortItems (mkItems [2, 2] [1, 1])) st →
      it ∈ sortItems (mkItems [2, 2] [1, 1]) → listMax st.total = some cp →
      passItem (horizonM [2, 2] 10000) (st, cp, imp) it = some (st', cp', imp') →
      contribSum (horizonM [2, 2] 10000) (sortItems (mkItems [2, 2] [1, 1])) st') :=
  claim_C8_aggregate_invariant [2, 2] [1, 1] 10000 (by norm_num) (by norm_num)
    (by norm_num) (by simp) (by norm_num)

/-- C9 amended: for a single item with `1 ≤ m₁ ≤ T_max` (the horizon covers a
full cycle) and `d₁ ≥ 0`, the algorithm returns offset `1` and the integer
peak `ceil(round(d₁·m₁, 1))` (the exact lot size only after rounding up). -/
theorem claim_C9_amended (m1 : ℕ) (d1 : ℚ) (T_max : ℕ)
    (hm : 1 ≤ m1) (hT : m1 ≤ T_max) (hd : 0 ≤ d1) :
    staggering_algorithm [m1] [d1] T_max = some ([1], ceilRound1 (d1 * m1)) := by
  have hitems : mkItems [m1] [d1] = [⟨0, m1, d1⟩] := by
    simp [mkItems, List.range_succ]
  have hsort : sortItems (mkItems [m1] [d1]) = [⟨0, m1, d1⟩] := by
    rw [hitems]
    rfl
  have hM : horizonM [m1] T_max = m1 := by
    have h1 : lcm_of_list [m1] = m1 := rfl
    unfold horizonM
    simp only [h1]
    rw [if_pos hT]
  have hgreedy : greedyPhase [m1] [d1] T_max =
      some (m1, [⟨0, m1, d1⟩], placeFirst m1 1 ⟨0, m1, d1⟩) := by
    unfold greedyPhase
    simp only [hsort, hM, List.foldlM_nil, List.length_cons, List.length_nil]
  have hclen : (compute_inventory_profile m1 d1 1 m1).length = m1 := length_profile ..
  have hcmax : listMax (compute_inventory_profile m1 d1 1 m1) = some (d1 * m1) := by
    have := listMax_profile m1 d1 1 m1 hm hd (le_refl 1) hm
    simpa using this
  have htot0 : (placeFirst m1 1 ⟨0, m1, d1⟩).total =
      compute_inventory_profile m1 d1 1 m1 := rfl
  have hbase_len : (subL (compute_inventory_profile m1 d1 1 m1)
      (compute_inventory_profile m1 d1 1 m1)).length = m1 := by
    rw [length_subL, hclen, min_self]
  have hnoimp : ∀ f, 1 ≤ f → f ≤ m1 → f ≠ 1 → ∀ q,
      listMax (addL (subL (compute_inventory_profile m1 d1 1 m1)
        (compute_inventory_profile m1 d1 1 m1))
        (compute_inventory_profile m1 d1 (f : ℤ) m1)) = some q →
      d1 * m1 ≤ q := by
    intro f hf1 hf2 _ q hq
    rw [addL_subL_self _ _ m1 hclen (length_profile ..)] at hq
    have hmax := listMax_profile m1 d1 f m1 hm hd hf1 hf2
    have : d1 * m1 = q := Option.some.inj (hmax.symm.trans hq)
    exact le_of_eq this
  have hscan := passScan_no_improve
    (subL (compute_inventory_profile m1 d1 1 m1) (compute_inventory_profile m1 d1 1 m1))
    m1 d1 m1 1 (d1 * m1) (compute_inventory_profile m1 d1 1 m1) false hm hbase_len hnoimp
  have hpi : passItem m1 (placeFirst m1 1 ⟨0, m1, d1⟩, d1 * m1, false) ⟨0, m1, d1⟩ =
      some (placeFirst m1 1 ⟨0, m1, d1⟩, d1 * m1, false) := by
    have e1 : (placeFirst m1 1 ⟨0, m1, d1⟩).schedules.getD 0 0 = 1 := rfl
    have e2 : (placeFirst m1 1 ⟨0, m1, d1⟩).contribs.getD 0 [] =
        compute_inventory_profile m1 d1 1 m1 := rfl
    simp only [passItem, e1, e2, htot0]
    rw [hscan]
    simp
  have hpo : passOnce m1 [⟨0, m1, d1⟩] (placeFirst m1 1 ⟨0, m1, d1⟩) =
      some (placeFirst m1 1 ⟨0, m1, d1⟩, false) := by
    simp only [passOnce, htot0, hcmax, List.foldlM_cons, List.foldlM_nil, hpi]
    rfl
  have hfuel : staggeringFuel [m1] = 1 * m1 + 1 := rfl
  have hloop : improveLoop m1 [⟨0, m1, d1⟩] (staggeringFuel [m1])
      (placeFirst m1 1 ⟨0, m1, d1⟩) = some (placeFirst m1 1 ⟨0, m1, d1⟩) := by
    rw [hfuel]
    simp only [improveLoop, hpo]
    simp
  have hfull : staggeringFull [m1] [d1] T_max =
      some (placeFirst m1 1 ⟨0, m1, d1⟩, m1, [⟨0, m1, d1⟩]) := by
    unfold staggeringFull
    simp only [hgreedy, hloop]
  unfold staggering_algorithm
  simp only [hfull, htot0, hcmax]
  rfl

/-- C9 amended witness: the theorem instantiated at `m₁ = 2`, `d₁ = 1`. -/
theorem claim_C9_amended_witness :
    staggering_algorithm [2] [1] 10000 = some ([1], ceilRound1 (1 * ((2 : ℕ) : ℚ))) :=
  claim_C9_amended 2 1 10000 (by norm_num) (by norm_num) (by norm_num)

/-- C5: `compute_inventory_profile(m, d, f, M)` returns a sequence of length
exactly `M` whose value at time step `t ∈ 1..M` is `d · (m − ((t − f) mod m))`;
when `m = 1` the profile is the constant `d` for every offset `f`. -/
theorem claim_C5_profile (m : ℕ) (d : ℚ) (f : ℤ) (M : ℕ)
    (hm : 1 ≤ m) (hd : 0 ≤ d) (hM : 1 ≤ M) :
    (compute_inventory_profile m d f M).length = M ∧
    (∀ t, 1 ≤ t → t ≤ M →
      (compute_inventory_profile m d f M).getD (t - 1) 0 =
        d * ((m : ℚ) - ((((t : ℤ) - f) % (m : ℤ) : ℤ) : ℚ))) ∧
    (m = 1 → ∀ t, 1 ≤ t → t ≤ M →
      (compute_inventory_profile m d f M).getD (t - 1) 0 = d) := by
  have key : ∀ t, 1 ≤ t → t ≤ M →
      (compute_inventory_profile m d f M).getD (t - 1) 0 =
        d * ((m : ℚ) - ((((t : ℤ) - f) % (m : ℤ) : ℤ) : ℚ)) := by
    intro t ht1 htM
    have hb : t - 1 < M := by omega
    rw [List.getD_eq_getElem _ 0 (by rw [length_profile]; exact hb),
      getElem_profile _ _ _ _ _ (by rw [length_profile]; exact hb)]
    unfold pointVal
    have : ((t - 1 : ℕ) : ℤ) + 1 = (t : ℤ) := by
      have : (1 : ℕ) ≤ t := ht1
      push_cast [this]; ring
    rw [this]
  refine ⟨length_profile .., key, ?_⟩
  rintro rfl t ht1 htM
  rw [key t ht1 htM]
  simp [Int.emod_one]

/-- C5 witness: the theorem instantiated at `m = 1`, `d = 2`, `f = 5`, `M = 3`. -/
theorem claim_C5_profile_witness :
    (compute_inventory_profile 1 2 5 3).length = 3 ∧
    (∀ t, 1 ≤ t → t ≤ 3 →
      (compute_inventory_profile 1 2 5 3).getD (t - 1) 0 =
        2 * ((1 : ℚ) - ((((t : ℤ) - 5) % (1 : ℤ) : ℤ) : ℚ))) ∧
    (1 = 1 → ∀ t, 1 ≤ t → t ≤ 3 →
      (compute_inventory_profile 1 2 5 3).getD (t - 1) 0 = 2) :=
  claim_C5_profile 1 2 5 3 (by norm_num) (by norm_num) (by norm_num)

/-- C10: with an empty item list (`N = 0`) the algorithm cannot select
`items[0]` and does not return a schedule-and-peak result: the embedding
yields `none` for every demand list and horizon cap. -/
theorem claim_C10_empty_input (d : List ℚ) (T_max : ℕ) :
    staggering_algorithm [] d T_max = none := by
  have h : mkItems [] d = [] := by simp [mkItems]
  simp [staggering_algorithm, staggeringFull, greedyPhase, sortItems, h]

/-- C4: on `m = [2,2]`, `d = [1,1]` the algorithm returns the staggered
offsets `[1, 2]` with peak `3`, and the aggregate of that assignment is
`[3, 3]`. -/
theorem claim_C4_two_items :
    staggering_algorithm [2, 2] [1, 1] 10000 = some ([1, 2], 3) ∧
    sumProfiles 2 (mkItems [2, 2] [1, 1]) [1, 2] = [3, 3] := by
  constructor
  · norm_num [staggering_algorithm, staggeringFull, greedyPhase, sortItems,
      mkItems, horizonM, lcm_of_list, lcm, placeFirst, greedyStep,
      scanOffsets, scanStep, compute_inventory_profile, addL, subL,
      listMax, improveLoop, passOnce, passItem, passScanStep,
      staggeringFuel, itemLE, lot, ceilRound1, round1, roundHalfEven,
      List.insertionSort, List.orderedInsert, max_def, List.range_succ,
      round_eq, Int.fract, List.replicate_succ, List.set]
  · norm_num [sumProfiles, mkItems, compute_inventory_profile, addL,
      List.range_succ, List.replicate_succ]

/-- C7 counterexample: on the invalid input `m = [1]`, `d = [-1]` (negative
demand) the code performs no validation and raises nothing: it runs the full
algorithm and returns the schedule `[1]` with peak `-1`, contradicting the
claim that an `InvalidDemand` error is raised before any scheduling work. -/
theorem claim_C7_cex :
    staggering_algorithm [1] [-1] 10000 = some ([1], -1) := by
  norm_num [staggering_algorithm, staggeringFull, greedyPhase, sortItems,
    mkItems, horizonM, lcm_of_list, lcm, placeFirst, greedyStep,
    scanOffsets, scanStep, compute_inventory_profile, addL, subL,
    listMax, improveLoop, passOnce, passItem, passScanStep,
    staggeringFuel, itemLE, lot, ceilRound1, round1, roundHalfEven,
    List.insertionSort, List.orderedInsert, max_def, List.range_succ,
    round_eq, Int.fract, List.replicate_succ, List.set, Int.ceil_neg,
    Int.floor_one]

/-- C9 counterexample: for the single item `m = [1]`, `d = [1/2]` the
returned peak is `ceil(round(1/2, 1)) = 1`, not `d₁ · m₁ = 1/2`: the claim's
peak formula fails because the code rounds the peak up to an integer. -/
theorem claim_C9_cex :
    staggering_algorithm [1] [1/2] 10000 = some ([1], 1) ∧
    ((1 : ℚ) / 2) * 1 ≠ ((1 : ℤ) : ℚ) := by
  constructor
  · norm_num [staggering_algorithm, staggeringFull, greedyPhase, sortItems,
      mkItems, horizonM, lcm_of_list, lcm, placeFirst, greedyStep,
      scanOffsets, scanStep, compute_inventory_profile, addL, subL,
      listMax, improveLoop, passOnce, passItem, passScanStep,
      staggeringFuel, itemLE, lot, ceilRound1, round1, roundHalfEven,
      List.insertionSort, List.orderedInsert, max_def, List.range_succ,
      round_eq, Int.fract, List.replicate_succ, List.set, Int.ceil_eq_iff]
  · norm_num

end RQ
